import Mathlib

/-!
Formal model of the Vibe Creation Studio AI-orchestration layer.

The definitions below are shallow embeddings of the TypeScript sources:
  * `src/services/modelRegistry.ts` — vendor registry, task routing,
    `selectBestModel`, `generateWithBestModel`, `updateModelAvailability`;
  * `src/services/synthesizer.ts` — `safeParseJSON`, `generateWithFallback`,
    `runMultiAgentWorkflow`.

Network calls are abstracted by explicit oracles (functions supplying each
call's outcome); mutable registry state is passed explicitly.  JavaScript's
`JSON.parse` is modelled by an executable recursive-descent parser over
`List Char`.
-/

/-- Embeds `enum ModelProvider` from `src/types` (part_000, lines 43-50). -/
inductive ModelProvider where
  | gemini
  | groq
  | deepseek
  | mistral
  | openrouter
  | huggingface
deriving DecidableEq

/-- The string value of each `ModelProvider` enum member. -/
def providerName : ModelProvider → String
  | .gemini => "gemini"
  | .groq => "groq"
  | .deepseek => "deepseek"
  | .mistral => "mistral"
  | .openrouter => "openrouter"
  | .huggingface => "huggingface"

/-- Embeds `TaskType` from `src/types` (part_000, lines 61-68). -/
inductive TaskType where
  | planning
  | writing
  | editing
  | critique
  | synthesis
  | image_generation
  | quick_response
deriving DecidableEq

/-- The string value of each `TaskType` member. -/
def taskTypeName : TaskType → String
  | .planning => "planning"
  | .writing => "writing"
  | .editing => "editing"
  | .critique => "critique"
  | .synthesis => "synthesis"
  | .image_generation => "image_generation"
  | .quick_response => "quick_response"

/-- Embeds `interface ModelConfig` from `src/types` (part_000, lines 52-59). -/
structure ModelConfig where
  provider : ModelProvider
  modelId : String
  displayName : String
  description : String
  strengths : List String
  isAvailable : Bool
deriving DecidableEq

/-- Embeds the static `MODEL_REGISTRY` table from
`src/services/modelRegistry.ts`, lines 37-101 (initial state). -/
def MODEL_REGISTRY : List ModelConfig := [
  { provider := .gemini, modelId := "gemini-2.5-flash",
    displayName := "Gemini 2.5 Flash",
    description := "Balanced speed and quality, supports image generation",
    strengths := ["images", "balanced", "multimodal"], isAvailable := true },
  { provider := .gemini, modelId := "gemini-1.5-pro",
    displayName := "Gemini 1.5 Pro",
    description := "Long context (1M tokens), best for complex documents",
    strengths := ["long_context", "reasoning", "analysis"], isAvailable := true },
  { provider := .groq, modelId := "llama-3.3-70b-versatile",
    displayName := "Llama 3.3 70B (Groq)",
    description := "Ultra-fast inference, strong general capabilities",
    strengths := ["speed", "reasoning", "general"], isAvailable := false },
  { provider := .groq, modelId := "mixtral-8x7b-32768",
    displayName := "Mixtral 8x7B (Groq)",
    description := "Fast, multilingual, 32k context",
    strengths := ["speed", "multilingual", "balanced"], isAvailable := false },
  { provider := .deepseek, modelId := "deepseek-chat",
    displayName := "DeepSeek V3",
    description := "Excellent reasoning and coding capabilities",
    strengths := ["reasoning", "coding", "analysis", "planning"], isAvailable := false },
  { provider := .mistral, modelId := "mistral-large-latest",
    displayName := "Mistral Large",
    description := "High quality text generation, excellent for prose",
    strengths := ["writing", "prose", "creative", "quality"], isAvailable := false },
  { provider := .mistral, modelId := "mistral-small-latest",
    displayName := "Mistral Small",
    description := "Efficient, good for quick tasks",
    strengths := ["speed", "efficiency", "quick_tasks"], isAvailable := false }
]

/-- Embeds `TASK_MODEL_PRIORITY` from `src/services/modelRegistry.ts`,
lines 107-115. -/
def TASK_MODEL_PRIORITY : TaskType → List ModelProvider
  | .planning => [.deepseek, .gemini, .mistral]
  | .writing => [.mistral, .deepseek, .gemini]
  | .editing => [.groq, .mistral, .gemini]
  | .critique => [.deepseek, .gemini, .mistral]
  | .synthesis => [.deepseek, .gemini, .mistral]
  | .image_generation => [.gemini]
  | .quick_response => [.groq, .gemini, .mistral]

/-- Embeds `MODEL_REGISTRY.find(m => m.provider === p && m.isAvailable)`
as used inside `selectBestModel` (modelRegistry.ts, lines 151-153). -/
def findAvailableModel (registry : List ModelConfig) (p : ModelProvider) :
    Option ModelConfig :=
  registry.find? (fun m => decide (m.provider = p) && m.isAvailable)

/-- The first loop of `selectBestModel` (modelRegistry.ts, lines 148-156):
walk the priority list, returning the first provider that is available and
has an available registry model. -/
def selectPreferred (registry : List ModelConfig)
    (availableProviders : List ModelProvider) :
    List ModelProvider → Option ModelConfig
  | [] => none
  | p :: rest =>
    if p ∈ availableProviders then
      match findAvailableModel registry p with
      | some m => some m
      | none => selectPreferred registry availableProviders rest
    else selectPreferred registry availableProviders rest

/-- The fallback loop of `selectBestModel` (modelRegistry.ts, lines 159-162):
scan `availableProviders` and return the first with any available model. -/
def selectFallback (registry : List ModelConfig) :
    List ModelProvider → Option ModelConfig
  | [] => none
  | p :: rest =>
    match findAvailableModel registry p with
    | some m => some m
    | none => selectFallback registry rest

/-- Embeds `selectBestModel` from `src/services/modelRegistry.ts`,
lines 145-165.  The mutable global `MODEL_REGISTRY` is passed explicitly. -/
def selectBestModel (registry : List ModelConfig) (taskType : TaskType)
    (availableProviders : List ModelProvider) : Option ModelConfig :=
  match selectPreferred registry availableProviders (TASK_MODEL_PRIORITY taskType) with
  | some m => some m
  | none => selectFallback registry availableProviders

/-- Embeds `updateModelAvailability` from `src/services/modelRegistry.ts`,
lines 213-219: flips `isAvailable` on every entry of the given provider. -/
def updateModelAvailability (registry : List ModelConfig)
    (provider : ModelProvider) (isAvailable : Bool) : List ModelConfig :=
  registry.map (fun m =>
    if m.provider = provider then { m with isAvailable := isAvailable } else m)

/-- The `model?.displayName || targetProvider` computation of
`generateWithBestModel` (modelRegistry.ts, lines 201-205). -/
def modelUsedName (registry : List ModelConfig) (target : ModelProvider) : String :=
  match registry.find? (fun m => decide (m.provider = target)) with
  | some m => m.displayName
  | none => providerName target

/-- Target-provider choice inside `generateWithBestModel`
(modelRegistry.ts, lines 183-193). -/
def chooseTarget (registry : List ModelConfig) (available : List ModelProvider)
    (taskType : TaskType) (preferredProvider : Option ModelProvider) :
    Except String ModelProvider :=
  match preferredProvider with
  | some p =>
    if p ∈ available then Except.ok p
    else
      match selectBestModel registry taskType available with
      | none => Except.error ("No suitable model found for task: " ++ taskTypeName taskType)
      | some m => Except.ok m.provider
  | none =>
    match selectBestModel registry taskType available with
    | none => Except.error ("No suitable model found for task: " ++ taskTypeName taskType)
    | some m => Except.ok m.provider

/-- Embeds `generateWithBestModel` from `src/services/modelRegistry.ts`,
lines 171-207.  `available` stands for `getAvailableProviders()`,
`registered p` for `getProvider(p) !== undefined`, and `generateText p` for
the outcome of `provider.generateText(prompt, options)`.  The second
component counts how many `generateText` calls were attempted. -/
def generateWithBestModel (registry : List ModelConfig)
    (available : List ModelProvider) (registered : ModelProvider → Bool)
    (generateText : ModelProvider → Except String String)
    (taskType : TaskType) (preferredProvider : Option ModelProvider) :
    Except String (String × String) × Nat :=
  if available = [] then
    (Except.error "No AI providers configured. Please add API keys to .env.local", 0)
  else
    match chooseTarget registry available taskType preferredProvider with
    | Except.error e => (Except.error e, 0)
    | Except.ok target =>
      if registered target then
        match generateText target with
        | Except.error e => (Except.error e, 1)
        | Except.ok text => (Except.ok (text, modelUsedName registry target), 1)
      else
        (Except.error ("Provider " ++ providerName target ++ " not initialized"), 0)

section SanityChecks

example : findAvailableModel MODEL_REGISTRY .openrouter = none := by decide

example :
    selectBestModel MODEL_REGISTRY .writing [.openrouter] = none := by decide

example :
    (selectBestModel MODEL_REGISTRY .writing [.gemini]).isSome = true := by decide

end SanityChecks

/-- Whitespace as recognised by `JSON.parse` and (up to exotic Unicode
space characters, which this model omits) by JavaScript's `String.trim`:
space, tab, line feed, carriage return. -/
def isWsChar (c : Char) : Bool :=
  c = ' ' || c = '\t' || c = '\n' || c = '\r'

/-- Drop leading whitespace from a character list. -/
def skipWsL (l : List Char) : List Char := l.dropWhile isWsChar

/-- Drop trailing whitespace from a character list. -/
def dropTrailWs (l : List Char) : List Char :=
  (l.reverse.dropWhile isWsChar).reverse

/-- Both-ends whitespace trim on character lists. -/
def trimChars (l : List Char) : List Char := dropTrailWs (skipWsL l)

/-- Models JavaScript's `String.trim()` (executable on string literals). -/
def trimS (s : String) : String := String.mk (trimChars s.data)

/-- First-seen-order deduplication, embedding insertion into the JS `Set`
`tryOrderSet` (synthesizer.ts, lines 562-567); `seen` collects the elements
already inserted. -/
def dedupFirst (seen : List ModelProvider) :
    List ModelProvider → List ModelProvider
  | [] => []
  | p :: rest =>
    if p ∈ seen then dedupFirst seen rest
    else p :: dedupFirst (p :: seen) rest

/-- The try-order built by `generateWithFallback` (synthesizer.ts, lines
561-567): preferred providers that are available, then all available
providers, deduplicated preserving first-seen order. -/
def tryOrder (preferredProviders : Option (List ModelProvider))
    (available : List ModelProvider) : List ModelProvider :=
  let pref :=
    match preferredProviders with
    | some l => l.filter (fun p => decide (p ∈ available))
    | none => []
  dedupFirst [] (pref ++ available)

/-- Result of one `generateWithFallback` run: the returned value (or the
aggregate error) together with the ordered trace of `generateText` attempts
made, each recorded as (provider, attempt number). -/
structure FallbackOutcome where
  result : Except String (String × ModelProvider)
  attempts : List (ModelProvider × Nat)

/-- The vendor loop of `generateWithFallback` (synthesizer.ts, lines
573-602): for each registered provider in order, try `generateText` up to
twice, succeeding on the first non-empty text; `generateText p k` is the
outcome of attempt `k` on provider `p`, `errors` the accumulated failure
messages, `trace` the attempts already made. -/
def fallbackGo (generateText : ModelProvider → Nat → Except String String)
    (registered : ModelProvider → Bool) :
    List ModelProvider → List String → List (ModelProvider × Nat) →
    FallbackOutcome
  | [], errors, trace =>
    ⟨Except.error ("All providers failed:\n" ++ String.intercalate "\n" errors),
     trace⟩
  | p :: rest, errors, trace =>
    if registered p then
      match generateText p 1 with
      | Except.ok t =>
        if trimS t ≠ "" then ⟨Except.ok (t, p), trace ++ [(p, 1)]⟩
        else
          match generateText p 2 with
          | Except.ok t2 =>
            if trimS t2 ≠ "" then ⟨Except.ok (t2, p), trace ++ [(p, 1), (p, 2)]⟩
            else fallbackGo generateText registered rest errors
              (trace ++ [(p, 1), (p, 2)])
          | Except.error e2 =>
            fallbackGo generateText registered rest
              (errors ++ [providerName p ++ ": " ++ e2])
              (trace ++ [(p, 1), (p, 2)])
      | Except.error e =>
        match generateText p 2 with
        | Except.ok t2 =>
          if trimS t2 ≠ "" then ⟨Except.ok (t2, p), trace ++ [(p, 1), (p, 2)]⟩
          else fallbackGo generateText registered rest
            (errors ++ [providerName p ++ ": " ++ e])
            (trace ++ [(p, 1), (p, 2)])
        | Except.error e2 =>
          fallbackGo generateText registered rest
            (errors ++ [providerName p ++ ": " ++ e,
                        providerName p ++ ": " ++ e2])
            (trace ++ [(p, 1), (p, 2)])
    else fallbackGo generateText registered rest errors trace

/-- Embeds `generateWithFallback` from `src/services/synthesizer.ts`, lines
548-603.  `available` stands for `getAvailableProviders()`, `registered p`
for `getProvider(p) !== undefined`, and `generateText p k` for the outcome
of attempt `k` of `provider.generateText(prompt, options)`. -/
def generateWithFallback
    (generateText : ModelProvider → Nat → Except String String)
    (registered : ModelProvider → Bool)
    (available : List ModelProvider)
    (preferredProviders : Option (List ModelProvider)) : FallbackOutcome :=
  if available = [] then
    ⟨Except.error "No AI providers configured. Please add API keys to .env.local",
     []⟩
  else fallbackGo generateText registered (tryOrder preferredProviders available)
    [] []

section FallbackLemmas

/-- The attempt trace only grows: whatever `fallbackGo` returns extends the
accumulator it was started with. -/
theorem fallbackGo_attempts_extend
    (gen : ModelProvider → Nat → Except String String)
    (registered : ModelProvider → Bool) :
    ∀ (l : List ModelProvider) (errors : List String)
      (trace : List (ModelProvider × Nat)),
      ∃ t, (fallbackGo gen registered l errors trace).attempts = trace ++ t := by
  intro l
  induction l with
  | nil => intro errors trace; exact ⟨[], by simp [fallbackGo]⟩
  | cons p rest ih =>
    intro errors trace
    by_cases hr : registered p
    · cases h1 : gen p 1 with
      | ok t =>
        by_cases ht : trimS t ≠ ""
        · exact ⟨[(p, 1)], by simp [fallbackGo, hr, h1, ht]⟩
        · cases h2 : gen p 2 with
          | ok t2 =>
            by_cases ht2 : trimS t2 ≠ ""
            · exact ⟨[(p, 1), (p, 2)], by simp [fallbackGo, hr, h1, ht, h2, ht2]⟩
            · obtain ⟨t', ht'⟩ := ih errors (trace ++ [(p, 1), (p, 2)])
              exact ⟨[(p, 1), (p, 2)] ++ t', by
                simp only [fallbackGo, hr, h1, h2, if_pos, if_neg ht, if_neg ht2,
                  ite_true]
                simp [ht', List.append_assoc]⟩
          | error e2 =>
            obtain ⟨t', ht'⟩ := ih (errors ++ [providerName p ++ ": " ++ e2])
              (trace ++ [(p, 1), (p, 2)])
            exact ⟨[(p, 1), (p, 2)] ++ t', by
              simp only [fallbackGo, hr, h1, h2, if_neg ht, ite_true]
              simp [ht', List.append_assoc]⟩
      | error e =>
        cases h2 : gen p 2 with
        | ok t2 =>
          by_cases ht2 : trimS t2 ≠ ""
          · exact ⟨[(p, 1), (p, 2)], by simp [fallbackGo, hr, h1, h2, ht2]⟩
          · obtain ⟨t', ht'⟩ := ih (errors ++ [providerName p ++ ": " ++ e])
              (trace ++ [(p, 1), (p, 2)])
            exact ⟨[(p, 1), (p, 2)] ++ t', by
              simp only [fallbackGo, hr, h1, h2, if_neg ht2, ite_true]
              simp [ht', List.append_assoc]⟩
        | error e2 =>
          obtain ⟨t', ht'⟩ := ih
            (errors ++ [providerName p ++ ": " ++ e,
                        providerName p ++ ": " ++ e2])
            (trace ++ [(p, 1), (p, 2)])
          exact ⟨[(p, 1), (p, 2)] ++ t', by
            simp only [fallbackGo, hr, h1, h2, ite_true]
            simp [ht', List.append_assoc]⟩
    · obtain ⟨t', ht'⟩ := ih errors trace
      exact ⟨t', by simp [fallbackGo, hr, ht']⟩

/-- Core induction for the fallback property: with every provider of `ps`
registered and failing on both attempts, and `q` registered and returning
non-empty text on its first attempt, the loop returns `q`'s text and the
trace is two attempts per failed provider followed by one attempt on `q`. -/
theorem fallbackGo_allFail_lastSucceeds
    (gen : ModelProvider → Nat → Except String String)
    (registered : ModelProvider → Bool) (q : ModelProvider) (tq : String)
    (hq : registered q = true) (hq1 : gen q 1 = Except.ok tq)
    (hqt : trimS tq ≠ "") :
    ∀ (ps : List ModelProvider) (errors : List String)
      (trace : List (ModelProvider × Nat)),
      (∀ p ∈ ps, registered p = true) →
      (∀ p ∈ ps, ∀ k, ∃ e, gen p k = Except.error e) →
      fallbackGo gen registered (ps ++ [q]) errors trace =
        ⟨Except.ok (tq, q),
         trace ++ ps.flatMap (fun p => [(p, 1), (p, 2)]) ++ [(q, 1)]⟩ := by
  intro ps
  induction ps with
  | nil =>
    intro errors trace _ _
    simp [fallbackGo, hq, hq1, hqt]
  | cons p rest ih =>
    intro errors trace hreg hfail
    obtain ⟨e1, he1⟩ := hfail p (List.mem_cons_self p rest) 1
    obtain ⟨e2, he2⟩ := hfail p (List.mem_cons_self p rest) 2
    have hp : registered p = true := hreg p (List.mem_cons_self p rest)
    have step :
        fallbackGo gen registered ((p :: rest) ++ [q]) errors trace =
          fallbackGo gen registered (rest ++ [q])
            (errors ++ [providerName p ++ ": " ++ e1,
                        providerName p ++ ": " ++ e2])
            (trace ++ [(p, 1), (p, 2)]) := by
      simp [fallbackGo, hp, he1, he2]
    rw [step, ih _ _ (fun x hx => hreg x (List.mem_cons_of_mem p hx))
      (fun x hx => hfail x (List.mem_cons_of_mem p hx))]
    simp [List.append_assoc]

end FallbackLemmas

/-- Registry state for the C1 counterexample: the initial static table with
Mistral marked available (as `updateModelAvailability` does when the Mistral
adapter finds its key). -/
def c1Registry : List ModelConfig :=
  updateModelAvailability MODEL_REGISTRY .mistral true

/-- Per-call behaviour for the C1 counterexample: Mistral always fails,
every other vendor succeeds with the text "OK". -/
def c1Gen : ModelProvider → Except String String :=
  fun p => if p = .mistral then Except.error "boom" else Except.ok "OK"

/-- C1 counterexample.  Two configured vendors (Gemini and Mistral, both
flagged available); the writing priority list makes `generateWithBestModel`
select Mistral, whose single `generateText` attempt fails.  The claim
demands that the call return the succeeding vendor's result ("OK") after
(1 failed vendor × up to 2) + 1 = at most 3 attempts; instead the call
propagates Mistral's error after exactly one attempt and never reaches the
succeeding vendor.  `generateWithBestModel` (modelRegistry.ts, lines
171-207) performs no retry and no fallback at all. -/
theorem generateWithBestModel_single_attempt_cex :
    generateWithBestModel c1Registry [.gemini, .mistral] (fun _ => true)
        c1Gen .writing none =
      (Except.error "boom", 1) := by
  rfl

/-- C1, amended: the claimed retry-then-fallback property holds of
`generateWithFallback` (synthesizer.ts, lines 548-603), not of
`generateWithBestModel`.  If the try-order is `ps ++ [q]` where every
provider of `ps` is registered and fails on both of its attempts, and `q`
is registered and returns non-empty text on its first attempt, then the
call returns `q`'s result, the attempt trace is exactly two attempts per
failed provider followed by a single attempt on `q` (so the total attempt
count is 2·|ps| + 1), and with `ps = []` the very first non-empty-text
attempt short-circuits with no further vendors tried. -/
theorem generateWithFallback_allFail_lastSucceeds
    (gen : ModelProvider → Nat → Except String String)
    (registered : ModelProvider → Bool) (available : List ModelProvider)
    (preferredProviders : Option (List ModelProvider))
    (ps : List ModelProvider) (q : ModelProvider) (tq : String)
    (hav : available ≠ [])
    (horder : tryOrder preferredProviders available = ps ++ [q])
    (hregs : ∀ p ∈ ps, registered p = true)
    (hfail : ∀ p ∈ ps, ∀ k, ∃ e, gen p k = Except.error e)
    (hq : registered q = true) (hq1 : gen q 1 = Except.ok tq)
    (hqt : trimS tq ≠ "") :
    (generateWithFallback gen registered available preferredProviders).result =
        Except.ok (tq, q) ∧
      (generateWithFallback gen registered available preferredProviders).attempts =
        ps.flatMap (fun p => [(p, 1), (p, 2)]) ++ [(q, 1)] ∧
      (generateWithFallback gen registered available
          preferredProviders).attempts.length = 2 * ps.length + 1 := by
  have h := fallbackGo_allFail_lastSucceeds gen registered q tq hq hq1 hqt ps
    [] [] hregs hfail
  have hrun : generateWithFallback gen registered available preferredProviders =
      ⟨Except.ok (tq, q), ps.flatMap (fun p => [(p, 1), (p, 2)]) ++ [(q, 1)]⟩ := by
    rw [generateWithFallback, if_neg hav, horder, h]
    simp
  refine ⟨by rw [hrun], by rw [hrun], ?_⟩
  rw [hrun]
  simp only [List.length_append, List.length_cons, List.length_nil]
  have hlen : ∀ l : List ModelProvider,
      (l.flatMap (fun p => [(p, 1), (p, 2)])).length = 2 * l.length := by
    intro l
    induction l with
    | nil => rfl
    | cons a t iht => simp [iht]; omega
  rw [hlen]

/-- Witness for the amended C1 theorem: Gemini fails both attempts, DeepSeek
succeeds first try; the run returns DeepSeek's text after 3 attempts. -/
theorem generateWithFallback_allFail_lastSucceeds_witness :
    (generateWithFallback
        (fun p _ => if p = .deepseek then Except.ok "hello" else Except.error "down")
        (fun _ => true) [.gemini, .deepseek] none).result =
        Except.ok ("hello", .deepseek) ∧
      (generateWithFallback
        (fun p _ => if p = .deepseek then Except.ok "hello" else Except.error "down")
        (fun _ => true) [.gemini, .deepseek] none).attempts =
        [(.gemini, 1), (.gemini, 2), (.deepseek, 1)] ∧
      (generateWithFallback
        (fun p _ => if p = .deepseek then Except.ok "hello" else Except.error "down")
        (fun _ => true) [.gemini, .deepseek] none).attempts.length = 3 := by
  have h := generateWithFallback_allFail_lastSucceeds
    (fun p _ => if p = .deepseek then Except.ok "hello" else Except.error "down")
    (fun _ => true) [.gemini, .deepseek] none [.gemini] .deepseek "hello"
    (by decide) (by decide)
    (by intro p hp; rfl)
    (by
      intro p hp k
      refine ⟨"down", ?_⟩
      have hpg : p = ModelProvider.gemini := by
        simpa using hp
      subst hpg
      rfl)
    (by decide) (by rfl) (by decide)
  exact ⟨h.1, by simpa using h.2.1, by simpa using h.2.2⟩

section TryOrderLemmas

/-- `dedupFirst` only consults membership of `seen`, not its arrangement. -/
theorem dedupFirst_congr :
    ∀ (l s1 s2 : List ModelProvider), (∀ a, a ∈ s1 ↔ a ∈ s2) →
      dedupFirst s1 l = dedupFirst s2 l := by
  intro l
  induction l with
  | nil => intro s1 s2 _; rfl
  | cons p rest ih =>
    intro s1 s2 hs
    by_cases hp : p ∈ s1
    · rw [dedupFirst, if_pos hp, dedupFirst, if_pos ((hs p).mp hp)]
      exact ih s1 s2 hs
    · rw [dedupFirst, if_neg hp, dedupFirst, if_neg (fun h => hp ((hs p).mpr h))]
      exact congrArg (p :: ·) (ih (p :: s1) (p :: s2) (by simp [hs]))

/-- Splitting `dedupFirst` over an append: the second chunk is deduplicated
with the first chunk's elements already seen. -/
theorem dedupFirst_append :
    ∀ (xs ys seen : List ModelProvider),
      dedupFirst seen (xs ++ ys) =
        dedupFirst seen xs ++ dedupFirst (xs ++ seen) ys := by
  intro xs
  induction xs with
  | nil => intro ys seen; rfl
  | cons x t ih =>
    intro ys seen
    by_cases hx : x ∈ seen
    · rw [List.cons_append, dedupFirst, if_pos hx, dedupFirst, if_pos hx, ih]
      refine congrArg _ ?_
      refine dedupFirst_congr ys (t ++ seen) (x :: t ++ seen) ?_
      intro a
      simp only [List.cons_append, List.mem_cons, List.mem_append]
      constructor
      · tauto
      · rintro (rfl | h | h)
        · exact Or.inr hx
        · exact Or.inl h
        · exact Or.inr h
    · rw [List.cons_append, dedupFirst, if_neg hx, dedupFirst, if_neg hx, ih,
        List.cons_append]
      refine congrArg (x :: ·) (congrArg _ ?_)
      exact dedupFirst_congr ys (t ++ x :: seen) (x :: t ++ seen)
        (by intro a; simp; tauto)

/-- `dedupFirst` emits each element once and never an element of `seen`. -/
theorem dedupFirst_nodup :
    ∀ (l seen : List ModelProvider),
      (dedupFirst seen l).Nodup ∧ ∀ a ∈ dedupFirst seen l, a ∉ seen := by
  intro l
  induction l with
  | nil => intro seen; simp [dedupFirst]
  | cons p rest ih =>
    intro seen
    by_cases hp : p ∈ seen
    · rw [dedupFirst, if_pos hp]; exact ih seen
    · rw [dedupFirst, if_neg hp]
      obtain ⟨hnd, hmem⟩ := ih (p :: seen)
      refine ⟨List.Nodup.cons (fun hmem2 => ?_) hnd, ?_⟩
      · exact hmem p hmem2 (List.mem_cons_self p seen)
      · intro a ha
        rcases List.mem_cons.mp ha with rfl | ha2
        · exact hp
        · exact fun h => hmem a ha2 (List.mem_cons_of_mem p h)

/-- Membership in `dedupFirst`. -/
theorem dedupFirst_mem :
    ∀ (l seen : List ModelProvider) (a : ModelProvider),
      a ∈ dedupFirst seen l ↔ (a ∈ l ∧ a ∉ seen) := by
  intro l
  induction l with
  | nil => intro seen a; simp [dedupFirst]
  | cons p rest ih =>
    intro seen a
    by_cases hp : p ∈ seen
    · rw [dedupFirst, if_pos hp, ih]
      constructor
      · rintro ⟨h1, h2⟩; exact ⟨List.mem_cons_of_mem p h1, h2⟩
      · rintro ⟨h1, h2⟩
        rcases List.mem_cons.mp h1 with rfl | h3
        · exact absurd hp h2
        · exact ⟨h3, h2⟩
    · rw [dedupFirst, if_neg hp]
      constructor
      · intro h
        rcases List.mem_cons.mp h with rfl | h2
        · exact ⟨List.mem_cons_self a rest, hp⟩
        · obtain ⟨h3, h4⟩ := (ih (p :: seen) a).mp h2
          exact ⟨List.mem_cons_of_mem p h3,
            fun h5 => h4 (List.mem_cons_of_mem p h5)⟩
      · rintro ⟨h1, h2⟩
        rcases List.mem_cons.mp h1 with rfl | h3
        · exact List.mem_cons_self a _
        · by_cases hap : a = p
          · subst hap; exact List.mem_cons_self a _
          · exact List.mem_cons_of_mem p ((ih (p :: seen) a).mpr
              ⟨h3, by simp [hap, h2]⟩)

/-- A registered head of the vendor list is attempted first. -/
theorem fallbackGo_first_attempt
    (gen : ModelProvider → Nat → Except String String)
    (registered : ModelProvider → Bool) (p : ModelProvider)
    (rest : List ModelProvider) (errors : List String)
    (hr : registered p = true) :
    (fallbackGo gen registered (p :: rest) errors []).attempts.head? =
      some (p, 1) := by
  cases h1 : gen p 1 with
  | ok t =>
    by_cases ht : trimS t ≠ ""
    · simp [fallbackGo, hr, h1, ht]
    · cases h2 : gen p 2 with
      | ok t2 =>
        by_cases ht2 : trimS t2 ≠ ""
        · simp [fallbackGo, hr, h1, ht, h2, ht2]
        · obtain ⟨tl, htl⟩ := fallbackGo_attempts_extend gen registered rest
            errors [(p, 1), (p, 2)]
          simp only [fallbackGo, hr, h1, h2, if_neg ht, if_neg ht2, ite_true,
            List.nil_append]
          simp [htl]
      | error e2 =>
        obtain ⟨tl, htl⟩ := fallbackGo_attempts_extend gen registered rest
          (errors ++ [providerName p ++ ": " ++ e2]) [(p, 1), (p, 2)]
        simp only [fallbackGo, hr, h1, h2, if_neg ht, ite_true, List.nil_append]
        simp [htl]
  | error e =>
    cases h2 : gen p 2 with
    | ok t2 =>
      by_cases ht2 : trimS t2 ≠ ""
      · simp [fallbackGo, hr, h1, h2, ht2]
      · obtain ⟨tl, htl⟩ := fallbackGo_attempts_extend gen registered rest
          (errors ++ [providerName p ++ ": " ++ e]) [(p, 1), (p, 2)]
        simp only [fallbackGo, hr, h1, h2, if_neg ht2, ite_true, List.nil_append]
        simp [htl]
    | error e2 =>
      obtain ⟨tl, htl⟩ := fallbackGo_attempts_extend gen registered rest
        (errors ++ [providerName p ++ ": " ++ e, providerName p ++ ": " ++ e2])
        [(p, 1), (p, 2)]
      simp only [fallbackGo, hr, h1, h2, ite_true, List.nil_append]
      simp [htl]

end TryOrderLemmas

/-- C6: with the writing preference list [Mistral, DeepSeek, Gemini]
(TASK_MODEL_PRIORITY / the writer call in synthesizer.ts) and Mistral
unconfigured while DeepSeek is configured, `generateWithFallback`'s
try-order starts with DeepSeek — so DeepSeek receives the first
`generateText` attempt, before Gemini or any other vendor — and in general
the try-order is the available preferred vendors in declared order followed
by the remaining available vendors, deduplicated preserving first-seen
order (no duplicates, and exactly the available vendors appear). -/
theorem writing_fallback_attempts_deepseek_first
    (available : List ModelProvider)
    (gen : ModelProvider → Nat → Except String String)
    (hm : ModelProvider.mistral ∉ available)
    (hd : ModelProvider.deepseek ∈ available) :
    (tryOrder (some [.mistral, .deepseek, .gemini]) available).head? =
        some ModelProvider.deepseek ∧
      (generateWithFallback gen (fun _ => true) available
          (some [.mistral, .deepseek, .gemini])).attempts.head? =
        some (ModelProvider.deepseek, 1) ∧
      (∀ (pref avail : List ModelProvider),
        tryOrder (some pref) avail =
          dedupFirst [] (pref.filter (fun p => decide (p ∈ avail))) ++
            dedupFirst (pref.filter (fun p => decide (p ∈ avail))) avail) ∧
      (∀ (pref : Option (List ModelProvider)) (avail : List ModelProvider),
        (tryOrder pref avail).Nodup) ∧
      (∀ (pref avail : List ModelProvider) (a : ModelProvider),
        a ∈ tryOrder (some pref) avail ↔ a ∈ avail) := by
  have hfil : [ModelProvider.mistral, ModelProvider.deepseek,
      ModelProvider.gemini].filter (fun p => decide (p ∈ available)) =
      ModelProvider.deepseek ::
        (if ModelProvider.gemini ∈ available then [ModelProvider.gemini]
         else []) := by
    by_cases hg : ModelProvider.gemini ∈ available <;>
      simp [List.filter, hm, hd, hg]
  have hhead : (tryOrder (some [.mistral, .deepseek, .gemini])
      available).head? = some ModelProvider.deepseek := by
    rw [tryOrder]
    simp only [hfil]
    rw [List.cons_append, dedupFirst, if_neg (List.not_mem_nil _)]
    rfl
  refine ⟨hhead, ?_, ?_, ?_, ?_⟩
  · rw [generateWithFallback,
      if_neg (List.ne_nil_of_mem hd)]
    cases horder : tryOrder (some [.mistral, .deepseek, .gemini]) available with
    | nil => rw [horder] at hhead; simp at hhead
    | cons p0 rest =>
      rw [horder] at hhead
      simp only [List.head?_cons, Option.some.injEq] at hhead
      subst hhead
      exact fallbackGo_first_attempt gen (fun _ => true) _ rest [] rfl
  · intro pref avail
    rw [tryOrder]
    rw [dedupFirst_append]
    refine congrArg _ (dedupFirst_congr avail _ _ ?_)
    intro a; simp
  · intro pref avail
    cases pref with
    | none => exact (dedupFirst_nodup _ []).1
    | some l => exact (dedupFirst_nodup _ []).1
  · intro pref avail a
    rw [tryOrder]
    rw [dedupFirst_mem]
    simp only [List.not_mem_nil, not_false_iff, and_true, List.mem_append,
      List.mem_filter]
    constructor
    · rintro (⟨_, h⟩ | h)
      · exact of_decide_eq_true h
      · exact h
    · intro h; exact Or.inr h

/-- Witness for the C6 theorem at the concrete scenario: only DeepSeek and
Gemini configured (in registry-iteration order [gemini, deepseek]); the
try-order and first attempt land on DeepSeek, not Gemini. -/
theorem writing_fallback_attempts_deepseek_first_witness :
    (tryOrder (some [.mistral, .deepseek, .gemini])
        [ModelProvider.gemini, ModelProvider.deepseek]).head? =
        some ModelProvider.deepseek ∧
      (generateWithFallback (fun _ _ => Except.error "down") (fun _ => true)
          [ModelProvider.gemini, ModelProvider.deepseek]
          (some [.mistral, .deepseek, .gemini])).attempts.head? =
        some (ModelProvider.deepseek, 1) := by
  have h := writing_fallback_attempts_deepseek_first
    [ModelProvider.gemini, ModelProvider.deepseek]
    (fun _ _ => Except.error "down") (by decide) (by decide)
  exact ⟨h.1, h.2.1⟩

section SelectBestModelLemmas

/-- `findAvailableModel` succeeds exactly when the registry holds an
available entry of that provider. -/
theorem findAvailableModel_isSome (registry : List ModelConfig)
    (p : ModelProvider) :
    (findAvailableModel registry p).isSome = true ↔
      ∃ m ∈ registry, m.provider = p ∧ m.isAvailable = true := by
  induction registry with
  | nil => simp [findAvailableModel]
  | cons m rest ih =>
    by_cases hm : m.provider = p ∧ m.isAvailable = true
    · obtain ⟨hm1, hm2⟩ := hm
      have hpred : (decide (m.provider = p) && m.isAvailable) = true := by
        simp [hm1, hm2]
      rw [findAvailableModel, List.find?, hpred]
      simp only [Option.isSome_some, true_iff]
      exact ⟨m, List.mem_cons_self m rest, hm1, hm2⟩
    · have hpred : (decide (m.provider = p) && m.isAvailable) = false := by
        rcases Decidable.em (m.provider = p) with h1 | h1
        · rcases Decidable.em (m.isAvailable = true) with h2 | h2
          · exact absurd ⟨h1, h2⟩ hm
          · simp [h2]
        · simp [h1]
      rw [findAvailableModel, List.find?]
      rw [hpred]
      rw [findAvailableModel] at ih
      rw [ih]
      constructor
      · rintro ⟨x, hx, hxp⟩; exact ⟨x, List.mem_cons_of_mem m hx, hxp⟩
      · rintro ⟨x, hx, hxp⟩
        rcases List.mem_cons.mp hx with rfl | hx2
        · exact absurd hxp hm
        · exact ⟨x, hx2, hxp⟩

/-- The fallback scan succeeds exactly when some listed provider has an
available registry model. -/
theorem selectFallback_isSome (registry : List ModelConfig) :
    ∀ avail : List ModelProvider,
      (selectFallback registry avail).isSome = true ↔
        ∃ p ∈ avail, (findAvailableModel registry p).isSome = true := by
  intro avail
  induction avail with
  | nil => simp [selectFallback]
  | cons p rest ih =>
    rw [selectFallback]
    cases hf : findAvailableModel registry p with
    | some m =>
      simp only [Option.isSome_some, true_iff]
      exact ⟨p, List.mem_cons_self p rest, by rw [hf]; rfl⟩
    | none =>
      rw [ih]
      constructor
      · rintro ⟨x, hx, hxs⟩; exact ⟨x, List.mem_cons_of_mem p hx, hxs⟩
      · rintro ⟨x, hx, hxs⟩
        rcases List.mem_cons.mp hx with rfl | hx2
        · rw [hf] at hxs; simp at hxs
        · exact ⟨x, hx2, hxs⟩

/-- A hit in the priority walk names an available provider with an
available registry model. -/
theorem selectPreferred_isSome_imp (registry : List ModelConfig)
    (avail : List ModelProvider) :
    ∀ pl : List ModelProvider,
      (selectPreferred registry avail pl).isSome = true →
        ∃ p ∈ avail, (findAvailableModel registry p).isSome = true := by
  intro pl
  induction pl with
  | nil => simp [selectPreferred]
  | cons p rest ih =>
    intro h
    rw [selectPreferred] at h
    by_cases hp : p ∈ avail
    · rw [if_pos hp] at h
      cases hf : findAvailableModel registry p with
      | some m => exact ⟨p, hp, by rw [hf]; rfl⟩
      | none => rw [hf] at h; exact ih h
    · rw [if_neg hp] at h; exact ih h

end SelectBestModelLemmas

/-- C3 counterexample.  The available-vendor list `[openrouter]` is
non-empty (the OpenRouter adapter exists and registers itself), yet
`selectBestModel` returns none for it: `MODEL_REGISTRY` contains no
OpenRouter entry, so both the priority walk and the fallback scan come up
empty.  This refutes "returns a non-null ModelDescriptor if and only if the
available-vendor list is non-empty". -/
theorem selectBestModel_nonempty_available_none_cex :
    selectBestModel MODEL_REGISTRY .writing [ModelProvider.openrouter] = none ∧
      [ModelProvider.openrouter] ≠ [] := by
  exact ⟨by rfl, by decide⟩

/-- C3, amended: for every registry state, task category and
available-vendor list, `selectBestModel` (modelRegistry.ts, lines 145-165)
returns a model if and only if some available vendor has a registry entry
flagged available — non-emptiness of the available list alone is not
enough (vendors without registry entries, such as OpenRouter and
HuggingFace, or vendors whose entries are flagged unavailable, yield
none). -/
theorem selectBestModel_isSome_iff (registry : List ModelConfig)
    (taskType : TaskType) (avail : List ModelProvider) :
    (selectBestModel registry taskType avail).isSome = true ↔
      ∃ p ∈ avail, ∃ m ∈ registry, m.provider = p ∧ m.isAvailable = true := by
  have hiff : (∃ p ∈ avail, (findAvailableModel registry p).isSome = true) ↔
      ∃ p ∈ avail, ∃ m ∈ registry, m.provider = p ∧ m.isAvailable = true := by
    constructor
    · rintro ⟨p, hp, hs⟩
      exact ⟨p, hp, (findAvailableModel_isSome registry p).mp hs⟩
    · rintro ⟨p, hp, hs⟩
      exact ⟨p, hp, (findAvailableModel_isSome registry p).mpr hs⟩
  rw [selectBestModel]
  cases hsp : selectPreferred registry avail (TASK_MODEL_PRIORITY taskType) with
  | some m =>
    simp only [Option.isSome_some, true_iff]
    exact hiff.mp (selectPreferred_isSome_imp registry avail _ (by rw [hsp]; rfl))
  | none =>
    rw [selectFallback_isSome]
    exact hiff

/-- C9: with zero configured vendors (`getAvailableProviders()` empty),
`generateWithBestModel` (modelRegistry.ts, lines 177-181) fails immediately
with the configuration error and the `generateText` attempt counter is 0 —
no vendor call is made, whatever the registry contents, provider
instances, task type or preferred-provider override. -/
theorem generateWithBestModel_no_providers_config_error
    (registry : List ModelConfig) (registered : ModelProvider → Bool)
    (generateText : ModelProvider → Except String String)
    (taskType : TaskType) (preferredProvider : Option ModelProvider) :
    generateWithBestModel registry [] registered generateText taskType
        preferredProvider =
      (Except.error "No AI providers configured. Please add API keys to .env.local",
       0) := by
  rfl

/-! ### JSON values and a model of `JSON.parse`

`safeParseJSON` (synthesizer.ts, lines 518-528) strips markdown code
fences and runs `JSON.parse`, falling back on any parse failure.  The
parser below models `JSON.parse`: optional surrounding whitespace, one
JSON value, nothing else.  Numbers keep their source text (their numeric
value is irrelevant to every property considered here). -/

/-- JSON values as produced by `JSON.parse`. -/
inductive JVal where
  | jnull
  | jbool (b : Bool)
  | jnum (txt : String)
  | jstr (s : String)
  | jarr (elems : List JVal)
  | jobj (members : List (String × JVal))

/-- The backtick character (code 96), used by markdown code fences. -/
def btick : Char := Char.ofNat 96

/-- The three-backtick fence. -/
def fence3 : List Char := [btick, btick, btick]

/-- The fence with the `json` info string. -/
def fenceJson : List Char := fence3 ++ ['j', 's', 'o', 'n']

/-- Boolean list-prefix test. -/
def hasPrefixL : List Char → List Char → Bool
  | [], _ => true
  | _ :: _, [] => false
  | p :: ps, c :: cs => decide (p = c) && hasPrefixL ps cs

/-- Boolean list-suffix test. -/
def hasSuffixL (p l : List Char) : Bool := hasPrefixL p.reverse l.reverse

/-- Hexadecimal digit value, for `\u` escapes. -/
def hexVal (c : Char) : Option Nat :=
  if '0' ≤ c ∧ c ≤ '9' then some (c.toNat - '0'.toNat)
  else if 'a' ≤ c ∧ c ≤ 'f' then some (c.toNat - 'a'.toNat + 10)
  else if 'A' ≤ c ∧ c ≤ 'F' then some (c.toNat - 'A'.toNat + 10)
  else none

/-- Single-character escape decoding for JSON string literals. -/
def escChar (e : Char) : Option Char :=
  if e = '"' then some '"'
  else if e = '\\' then some '\\'
  else if e = '/' then some '/'
  else if e = 'b' then some (Char.ofNat 8)
  else if e = 'f' then some (Char.ofNat 12)
  else if e = 'n' then some '\n'
  else if e = 'r' then some '\r'
  else if e = 't' then some '\t'
  else none

/-- JSON string-literal body: characters up to the closing quote, decoding
escapes; returns the decoded string and the input after the close quote. -/
def parseStringBody (acc : List Char) : List Char → Option (String × List Char)
  | [] => none
  | c :: rest =>
    if c = '"' then some (String.mk acc.reverse, rest)
    else if c = '\\' then
      match rest with
      | 'u' :: h1 :: h2 :: h3 :: h4 :: rest3 =>
        match hexVal h1, hexVal h2, hexVal h3, hexVal h4 with
        | some a, some b, some cc, some d =>
          parseStringBody
            (Char.ofNat (((a * 16 + b) * 16 + cc) * 16 + d) :: acc) rest3
        | _, _, _, _ => none
      | e :: rest2 =>
        match escChar e with
        | some d => parseStringBody (d :: acc) rest2
        | none => none
      | [] => none
    else if c.toNat < 32 then none
    else parseStringBody (c :: acc) rest

/-- Split a list at the end of its leading digit run. -/
def digitsSplit (l : List Char) : List Char × List Char :=
  (l.takeWhile Char.isDigit, l.dropWhile Char.isDigit)

/-- JSON integer part: a digit run with no leading zero. -/
def parseIntPart (l : List Char) : Option (List Char × List Char) :=
  let (ds, r) := digitsSplit l
  if ds = [] then none
  else if ds.head? = some '0' ∧ 1 < ds.length then none
  else some (ds, r)

/-- JSON fraction part (possibly absent). -/
def parseFracPart : List Char → Option (List Char × List Char)
  | [] => some ([], [])
  | c :: t =>
    if c = '.' then
      let (ds, r) := digitsSplit t
      if ds = [] then none else some ('.' :: ds, r)
    else some ([], c :: t)

/-- JSON exponent part (possibly absent). -/
def parseExpPart : List Char → Option (List Char × List Char)
  | [] => some ([], [])
  | c :: t =>
    if c = 'e' ∨ c = 'E' then
      match t with
      | s :: t2 =>
        if s = '+' ∨ s = '-' then
          let (ds, r) := digitsSplit t2
          if ds = [] then none else some (c :: s :: ds, r)
        else
          let (ds, r) := digitsSplit t
          if ds = [] then none else some (c :: ds, r)
      | [] => none
    else some ([], c :: t)

/-- Sign split for a JSON number token. -/
def signSplit : List Char → List Char × List Char
  | [] => ([], [])
  | c :: t => if c = '-' then (['-'], t) else ([], c :: t)

/-- JSON number token: optional minus, integer, fraction, exponent; returns
the token text and the remaining input. -/
def parseNumber (l : List Char) : Option (List Char × List Char) :=
  let (sign, l1) := signSplit l
  match parseIntPart l1 with
  | none => none
  | some (ip, r1) =>
    match parseFracPart r1 with
    | none => none
    | some (fp, r2) =>
      match parseExpPart r2 with
      | none => none
      | some (ep, r3) => some (sign ++ ip ++ fp ++ ep, r3)

/-- Keyword recognition after the initial character (`rue`, `alse`, `ull`). -/
def matchKeyword (kw : List Char) (l : List Char) : Option (List Char) :=
  match kw, l with
  | [], _ => some l
  | _ :: _, [] => none
  | k :: ks, c :: cs => if k = c then matchKeyword ks cs else none

mutual

/-- Fuel-indexed JSON value parser (the input is assumed to start at a
non-whitespace character; callers strip whitespace). -/
def parseValue : Nat → List Char → Option (JVal × List Char)
  | 0, _ => none
  | _ + 1, [] => none
  | fuel + 1, c :: t =>
    if c = '"' then
      match parseStringBody [] t with
      | some (s, r) => some (JVal.jstr s, r)
      | none => none
    else if c = '{' then parseObjBody fuel (skipWsL t)
    else if c = '[' then parseArrBody fuel (skipWsL t)
    else if c = 't' then
      match matchKeyword ['r', 'u', 'e'] t with
      | some r => some (JVal.jbool true, r)
      | none => none
    else if c = 'f' then
      match matchKeyword ['a', 'l', 's', 'e'] t with
      | some r => some (JVal.jbool false, r)
      | none => none
    else if c = 'n' then
      match matchKeyword ['u', 'l', 'l'] t with
      | some r => some (JVal.jnull, r)
      | none => none
    else if c = '-' ∨ c.isDigit then
      match parseNumber (c :: t) with
      | some (txt, r) => some (JVal.jnum (String.mk txt), r)
      | none => none
    else none

/-- Object body (input already past `{` and whitespace-stripped). -/
def parseObjBody : Nat → List Char → Option (JVal × List Char)
  | 0, _ => none
  | fuel + 1, [] => parseMembers fuel [] []
  | fuel + 1, c :: r =>
    if c = '}' then some (JVal.jobj [], r)
    else parseMembers fuel (c :: r) []

/-- One-or-more object members. -/
def parseMembers : Nat → List Char → List (String × JVal) →
    Option (JVal × List Char)
  | 0, _, _ => none
  | _ + 1, [], _ => none
  | fuel + 1, c :: t, acc =>
    if c = '"' then
      match parseStringBody [] t with
      | none => none
      | some (k, r1) =>
        match skipWsL r1 with
        | [] => none
        | c2 :: r2 =>
          if c2 = ':' then
            match parseValue fuel (skipWsL r2) with
            | none => none
            | some (v, r3) =>
              match skipWsL r3 with
              | [] => none
              | c3 :: r4 =>
                if c3 = ',' then parseMembers fuel (skipWsL r4) (acc ++ [(k, v)])
                else if c3 = '}' then some (JVal.jobj (acc ++ [(k, v)]), r4)
                else none
          else none
    else none

/-- Array body (input already past `[` and whitespace-stripped). -/
def parseArrBody : Nat → List Char → Option (JVal × List Char)
  | 0, _ => none
  | fuel + 1, [] => parseElems fuel [] []
  | fuel + 1, c :: r =>
    if c = ']' then some (JVal.jarr [], r)
    else parseElems fuel (c :: r) []

/-- One-or-more array elements. -/
def parseElems : Nat → List Char → List JVal → Option (JVal × List Char)
  | 0, _, _ => none
  | fuel + 1, l, acc =>
    match parseValue fuel l with
    | none => none
    | some (v, r1) =>
      match skipWsL r1 with
      | [] => none
      | c2 :: r2 =>
        if c2 = ',' then parseElems fuel (skipWsL r2) (acc ++ [v])
        else if c2 = ']' then some (JVal.jarr (acc ++ [v]), r2)
        else none

end

/-- Models `JSON.parse` on a character list: trim surrounding whitespace,
parse one value, require the remainder to be whitespace-only (on trimmed
input the remainder must in fact be empty). -/
def jsonParseL (l : List Char) : Option JVal :=
  let t := trimChars l
  match parseValue (3 * t.length + 8) t with
  | some (v, rest) => if skipWsL rest = [] then some v else none
  | none => none

/-- Models `JSON.parse` on a string. -/
def jsonParse (s : String) : Option JVal := jsonParseL s.data

/-- Embeds the fence-stripping of `safeParseJSON` (synthesizer.ts, line
522): `text.replace(/^```json\s*/, '').replace(/^```\s*/, '')
.replace(/\s*```$/, '').trim()`. -/
def stripFencesL (l : List Char) : List Char :=
  let s1 := if hasPrefixL fenceJson l then skipWsL (l.drop 7) else l
  let s2 := if hasPrefixL fence3 s1 then skipWsL (s1.drop 3) else s1
  let s3 :=
    if hasSuffixL fence3 s2 then dropTrailWs (s2.take (s2.length - 3)) else s2
  trimChars s3

/-- Embeds `safeParseJSON` from `src/services/synthesizer.ts`, lines
518-528: empty text yields the fallback; otherwise strip fences and
`JSON.parse`, with any parse failure yielding the fallback. -/
def safeParseJSON (text : String) (fallback : JVal) : JVal :=
  if text = "" then fallback
  else
    match jsonParseL (stripFencesL text.data) with
    | some v => v
    | none => fallback

/-- Last-occurrence association lookup, matching how `JSON.parse` resolves
duplicate keys on JavaScript objects. -/
def lookupLast : List (String × JVal) → String → Option JVal
  | [], _ => none
  | (k2, v2) :: rest, k =>
    match lookupLast rest k with
    | some r => some r
    | none => if k2 = k then some v2 else none

/-- JavaScript property access `v.k` on a parsed JSON value (`undefined`
is `none`). -/
def jlookup (v : JVal) (k : String) : Option JVal :=
  match v with
  | JVal.jobj ms => lookupLast ms k
  | _ => none

section JsonSanity

example : jsonParse "  \x7b\"tasks\": []\x7d " =
    some (JVal.jobj [("tasks", JVal.jarr [])]) := by rfl

example : jsonParse "not json" = none := by rfl

example : jsonParse "\x7b\"a\": [1, true, null, \"s\"]\x7d" =
    some (JVal.jobj [("a", JVal.jarr
      [JVal.jnum "1", JVal.jbool true, JVal.jnull, JVal.jstr "s"])]) := by rfl

example :
    safeParseJSON "```json\n\x7b\"content\": \"hi\"\x7d\n```" JVal.jnull =
      JVal.jobj [("content", JVal.jstr "hi")] := by rfl

example : safeParseJSON "garbage" (JVal.jstr "fb") = JVal.jstr "fb" := by rfl

example : safeParseJSON "" (JVal.jstr "fb") = JVal.jstr "fb" := by rfl

end JsonSanity

section WsToolbox

theorem skipWsL_cons_not_ws (c : Char) (t : List Char)
    (h : isWsChar c = false) : skipWsL (c :: t) = c :: t := by
  simp [skipWsL, List.dropWhile, h]

theorem skipWsL_nil : skipWsL [] = [] := rfl

theorem skipWsL_append_left (w l : List Char) (hw : ∀ c ∈ w, isWsChar c) :
    skipWsL (w ++ l) = skipWsL l := by
  induction w with
  | nil => rfl
  | cons a t ih =>
    have ha : isWsChar a = true := hw a (List.mem_cons_self a t)
    simp only [List.cons_append, skipWsL, List.dropWhile, ha]
    exact ih (fun c hc => hw c (List.mem_cons_of_mem a hc))

theorem skipWsL_split (l : List Char) :
    ∃ w, l = w ++ skipWsL l ∧ ∀ c ∈ w, isWsChar c := by
  refine ⟨l.takeWhile isWsChar,
    (List.takeWhile_append_dropWhile isWsChar l).symm, ?_⟩
  intro c hc
  exact List.mem_takeWhile_imp hc

theorem skipWsL_head_not_ws (l : List Char) (c : Char) (t : List Char)
    (h : skipWsL l = c :: t) : isWsChar c = false := by
  induction l with
  | nil => simp [skipWsL] at h
  | cons a r ih =>
    by_cases ha : isWsChar a
    · rw [skipWsL, List.dropWhile] at h
      rw [ha] at h
      exact ih h
    · rw [skipWsL_cons_not_ws a r (by simp [ha])] at h
      cases h
      simp [ha]

theorem dropWhileWs_append_singleton (A : List Char) (c : Char)
    (h : isWsChar c = false) :
    (A ++ [c]).dropWhile isWsChar = A.dropWhile isWsChar ++ [c] := by
  induction A with
  | nil => simp [List.dropWhile, h]
  | cons a t ih =>
    by_cases ha : isWsChar a
    · simp [List.dropWhile, ha, ih]
    · simp [List.dropWhile, ha]

theorem dropTrailWs_append_not_ws (l : List Char) (c : Char)
    (h : isWsChar c = false) : dropTrailWs (l ++ [c]) = l ++ [c] := by
  rw [dropTrailWs, List.reverse_append]
  simp only [List.reverse_cons, List.reverse_nil, List.nil_append,
    List.singleton_append]
  rw [List.dropWhile, h]
  simp

theorem dropTrailWs_cons_not_ws (c : Char) (t : List Char)
    (h : isWsChar c = false) : dropTrailWs (c :: t) = c :: dropTrailWs t := by
  rw [dropTrailWs, List.reverse_cons, dropWhileWs_append_singleton _ _ h]
  rw [List.reverse_append]
  rfl

theorem dropTrailWs_nil : dropTrailWs [] = [] := rfl

theorem head_eq_of_suffix_concat (X s : List Char) (c : Char)
    (hsf : s ≠ []) (h : ∃ pre, pre ++ s = X ++ [c]) :
    ∃ t2, s.reverse = c :: t2 := by
  obtain ⟨pre, hpre⟩ := h
  have hlast : s.getLast? = some c := by
    have h1 : (pre ++ s).getLast? = s.getLast? :=
      List.getLast?_append_of_ne_nil pre hsf
    rw [hpre] at h1
    rw [List.getLast?_concat] at h1
    exact h1.symm
  have hhead : s.reverse.head? = some c := by
    rw [List.head?_reverse]; exact hlast
  cases hs : s.reverse with
  | nil => rw [hs] at hhead; simp at hhead
  | cons b r =>
    rw [hs] at hhead
    simp only [List.head?_cons, Option.some.injEq] at hhead
    exact ⟨r, by rw [hhead]⟩

theorem dropTrailWs_head (c : Char) (t : List Char) :
    dropTrailWs (c :: t) = [] ∨ ∃ t2, dropTrailWs (c :: t) = c :: t2 := by
  rw [dropTrailWs, List.reverse_cons]
  cases hdw : (t.reverse ++ [c]).dropWhile isWsChar with
  | nil => exact Or.inl (by simp [hdw])
  | cons a r =>
    have hsf : ∃ pre, pre ++ (a :: r) = t.reverse ++ [c] := by
      have h0 : (t.reverse ++ [c]).dropWhile isWsChar <:+ t.reverse ++ [c] :=
        List.dropWhile_suffix isWsChar
      rw [hdw] at h0
      exact h0
    obtain ⟨t2, ht2⟩ :=
      head_eq_of_suffix_concat t.reverse (a :: r) c (by simp) hsf
    exact Or.inr ⟨t2, ht2⟩

end WsToolbox

section ConsumptionLemmas

/-- `m` is a suffix of `l` (with some consumed prefix in front). -/
def SufOf (m l : List Char) : Prop := ∃ p, l = p ++ m

theorem sufOf_self (l : List Char) : SufOf l l := ⟨[], rfl⟩

theorem SufOf.trans (r m l : List Char) (h1 : SufOf m l) (h2 : SufOf r m) :
    SufOf r l := by
  obtain ⟨p1, rfl⟩ := h1
  obtain ⟨p2, rfl⟩ := h2
  exact ⟨p1 ++ p2, by rw [List.append_assoc]⟩

theorem sufOf_cons_pre (c : Char) (m l : List Char) (h : SufOf m l) :
    SufOf m (c :: l) := by
  obtain ⟨p, rfl⟩ := h
  exact ⟨c :: p, rfl⟩

theorem sufOf_skipWs (l : List Char) : SufOf (skipWsL l) l := by
  obtain ⟨w, hw, _⟩ := skipWsL_split l
  exact ⟨w, hw⟩

/-- A parse step consumed a non-empty chunk of `l`, leaving `rest`, and the
final consumed character is not a backtick. -/
def ConsumesTo (l rest : List Char) : Prop :=
  ∃ pre c, l = pre ++ c :: rest ∧ c ≠ btick

theorem ConsumesTo.sufOf (l rest : List Char) (h : ConsumesTo l rest) :
    SufOf rest l := by
  obtain ⟨pre, c, rfl, _⟩ := h
  exact ⟨pre ++ [c], by simp⟩

theorem ConsumesTo.compPre (m l rest : List Char) (h1 : SufOf m l)
    (h2 : ConsumesTo m rest) : ConsumesTo l rest := by
  obtain ⟨p, rfl⟩ := h1
  obtain ⟨pre, c, rfl, hc⟩ := h2
  exact ⟨p ++ pre, c, by rw [List.append_assoc], hc⟩

theorem consumesTo_cons_pre (c : Char) (t rest : List Char)
    (h : ConsumesTo t rest) : ConsumesTo (c :: t) rest :=
  ConsumesTo.compPre t (c :: t) rest ⟨[c], rfl⟩ h

theorem consumesTo_single (c : Char) (pre rest : List Char) (hc : c ≠ btick) :
    ConsumesTo (pre ++ c :: rest) rest := ⟨pre, c, rfl, hc⟩

theorem ConsumesTo.viaSkipWs (l rest : List Char)
    (h : ConsumesTo (skipWsL l) rest) : ConsumesTo l rest :=
  ConsumesTo.compPre (skipWsL l) l rest (sufOf_skipWs l) h

theorem digit_ne_btick (c : Char) (h : c.isDigit = true) : c ≠ btick := by
  intro heq; subst heq; exact absurd h (by decide)

/-- The string-literal body parser consumes up to and including a closing
quote. -/
theorem parseStringBody_consumes :
    ∀ (n : Nat) (t acc : List Char) (s : String) (rest : List Char),
      t.length ≤ n → parseStringBody acc t = some (s, rest) →
      ∃ pre, t = pre ++ '"' :: rest := by
  intro n
  induction n with
  | zero =>
    intro t acc s rest hlen h
    have ht : t = [] := List.eq_nil_of_length_eq_zero (Nat.le_zero.mp hlen)
    subst ht
    rw [parseStringBody.eq_def] at h
    exact absurd h (by simp)
  | succ n ih =>
    intro t acc s rest hlen h
    cases t with
    | nil =>
      rw [parseStringBody.eq_def] at h
      exact absurd h (by simp)
    | cons c r =>
      have hrlen : r.length ≤ n := by
        simp only [List.length_cons] at hlen
        omega
      rw [parseStringBody.eq_def] at h
      dsimp only at h
      by_cases hq : c = '"'
      · rw [if_pos hq] at h
        simp only [Option.some.injEq, Prod.mk.injEq] at h
        subst hq
        exact ⟨[], by simp [h.2]⟩
      · rw [if_neg hq] at h
        by_cases hb : c = '\\'
        · rw [if_pos hb] at h
          split at h
          · rename_i h1 h2 h3 h4 rest3
            split at h
            · rename_i a b cc d ha hb2 hc2 hd2
              have hlen3 : rest3.length ≤ n := by
                simp only [List.length_cons] at hlen
                omega
              obtain ⟨pre, hp⟩ := ih rest3 _ s rest hlen3 h
              refine ⟨c :: 'u' :: h1 :: h2 :: h3 :: h4 :: pre, ?_⟩
              rw [hp]; rfl
            · exact absurd h (by simp)
          · rename_i e rest2 _
            split at h
            · rename_i d _
              have hlen2 : rest2.length ≤ n := by
                simp only [List.length_cons] at hlen
                omega
              obtain ⟨pre, hp⟩ := ih rest2 _ s rest hlen2 h
              refine ⟨c :: e :: pre, ?_⟩
              rw [hp]; rfl
            · exact absurd h (by simp)
          · exact absurd h (by simp)
        · rw [if_neg hb] at h
          by_cases h32 : c.toNat < 32
          · rw [if_pos h32] at h; exact absurd h (by simp)
          · rw [if_neg h32] at h
            obtain ⟨pre, hp⟩ := ih r _ s rest hrlen h
            exact ⟨c :: pre, by rw [hp]; rfl⟩

/-- Convenience form of `parseStringBody_consumes`. -/
theorem parseStringBody_consumes2 (acc t : List Char) (s : String)
    (rest : List Char) (h : parseStringBody acc t = some (s, rest)) :
    ∃ pre, t = pre ++ '"' :: rest :=
  parseStringBody_consumes t.length t acc s rest (Nat.le_refl _) h

/-- The integer part consumes a non-empty digit run. -/
theorem parseIntPart_consumes (l ip r : List Char)
    (h : parseIntPart l = some (ip, r)) :
    l = ip ++ r ∧ ∃ p c, ip = p ++ [c] ∧ c.isDigit = true := by
  rw [parseIntPart, digitsSplit] at h
  dsimp only at h
  by_cases hds : l.takeWhile Char.isDigit = []
  · rw [if_pos hds] at h; exact absurd h (by simp)
  · rw [if_neg hds] at h
    split at h
    · exact absurd h (by simp)
    · simp only [Option.some.injEq, Prod.mk.injEq] at h
      obtain ⟨hip, hr⟩ := h
      subst hip; subst hr
      refine ⟨(List.takeWhile_append_dropWhile Char.isDigit l).symm, ?_⟩
      rcases List.eq_nil_or_concat (l.takeWhile Char.isDigit) with hnil | ⟨p, c, hpc⟩
      · exact absurd hnil hds
      · refine ⟨p, c, by rw [hpc, List.concat_eq_append], ?_⟩
        have hc : c ∈ l.takeWhile Char.isDigit := by rw [hpc]; simp
        exact List.mem_takeWhile_imp hc

/-- The fraction part is absent or consumes a chunk ending in a digit. -/
theorem parseFracPart_consumes (l fp r : List Char)
    (h : parseFracPart l = some (fp, r)) :
    (fp = [] ∧ r = l) ∨
      (l = fp ++ r ∧ ∃ p c, fp = p ++ [c] ∧ c.isDigit = true) := by
  cases l with
  | nil =>
    rw [parseFracPart] at h
    simp only [Option.some.injEq, Prod.mk.injEq] at h
    exact Or.inl ⟨h.1.symm, h.2.symm⟩
  | cons c t =>
    rw [parseFracPart] at h
    by_cases hc : c = '.'
    · rw [if_pos hc] at h
      rw [digitsSplit] at h
      dsimp only at h
      by_cases hds : t.takeWhile Char.isDigit = []
      · rw [if_pos hds] at h
        exact absurd h (by simp)
      · rw [if_neg hds] at h
        simp only [Option.some.injEq, Prod.mk.injEq] at h
        obtain ⟨hfp, hr⟩ := h
        subst hfp; subst hr; subst hc
        refine Or.inr ⟨by
          rw [List.cons_append]
          exact congrArg _ (List.takeWhile_append_dropWhile Char.isDigit t).symm,
          ?_⟩
        rcases List.eq_nil_or_concat (t.takeWhile Char.isDigit) with hnil | ⟨p, d, hpd⟩
        · exact absurd hnil hds
        · refine ⟨'.' :: p, d, by rw [hpd, List.concat_eq_append]; rfl, ?_⟩
          have hd : d ∈ t.takeWhile Char.isDigit := by rw [hpd]; simp
          exact List.mem_takeWhile_imp hd
    · rw [if_neg hc] at h
      simp only [Option.some.injEq, Prod.mk.injEq] at h
      exact Or.inl ⟨h.1.symm, h.2.symm⟩

/-- The exponent part is absent or consumes a chunk ending in a digit. -/
theorem parseExpPart_consumes (l ep r : List Char)
    (h : parseExpPart l = some (ep, r)) :
    (ep = [] ∧ r = l) ∨
      (l = ep ++ r ∧ ∃ p c, ep = p ++ [c] ∧ c.isDigit = true) := by
  cases l with
  | nil =>
    rw [parseExpPart] at h
    simp only [Option.some.injEq, Prod.mk.injEq] at h
    exact Or.inl ⟨h.1.symm, h.2.symm⟩
  | cons c t =>
    rw [parseExpPart.eq_def] at h
    dsimp only at h
    by_cases hc : c = 'e' ∨ c = 'E'
    · rw [if_pos hc] at h
      cases t with
      | nil => exact absurd h (by simp)
      | cons s t2 =>
        dsimp only at h
        by_cases hsgn : s = '+' ∨ s = '-'
        · rw [if_pos hsgn] at h
          rw [digitsSplit] at h
          dsimp only at h
          by_cases hds : t2.takeWhile Char.isDigit = []
          · rw [if_pos hds] at h
            exact absurd h (by simp)
          · rw [if_neg hds] at h
            simp only [Option.some.injEq, Prod.mk.injEq] at h
            obtain ⟨hep, hr⟩ := h
            subst hep; subst hr
            refine Or.inr ⟨by
              rw [List.cons_append, List.cons_append]
              exact congrArg _ (congrArg _
                (List.takeWhile_append_dropWhile Char.isDigit t2).symm), ?_⟩
            rcases List.eq_nil_or_concat (t2.takeWhile Char.isDigit) with hnil | ⟨p, d, hpd⟩
            · exact absurd hnil hds
            · refine ⟨c :: s :: p, d, by rw [hpd, List.concat_eq_append]; rfl, ?_⟩
              have hd : d ∈ t2.takeWhile Char.isDigit := by rw [hpd]; simp
              exact List.mem_takeWhile_imp hd
        · rw [if_neg hsgn] at h
          rw [digitsSplit] at h
          dsimp only at h
          by_cases hds : (s :: t2).takeWhile Char.isDigit = []
          · rw [if_pos hds] at h
            exact absurd h (by simp)
          · rw [if_neg hds] at h
            simp only [Option.some.injEq, Prod.mk.injEq] at h
            obtain ⟨hep, hr⟩ := h
            subst hep; subst hr
            refine Or.inr ⟨by
              rw [List.cons_append]
              exact congrArg _
                (List.takeWhile_append_dropWhile Char.isDigit (s :: t2)).symm, ?_⟩
            rcases List.eq_nil_or_concat ((s :: t2).takeWhile Char.isDigit) with hnil | ⟨p, d, hpd⟩
            · exact absurd hnil hds
            · refine ⟨c :: p, d, by rw [hpd, List.concat_eq_append]; rfl, ?_⟩
              have hd : d ∈ (s :: t2).takeWhile Char.isDigit := by rw [hpd]; simp
              exact List.mem_takeWhile_imp hd
    · rw [if_neg hc] at h
      simp only [Option.some.injEq, Prod.mk.injEq] at h
      exact Or.inl ⟨h.1.symm, h.2.symm⟩

/-- The number parser consumes a non-empty chunk ending in a digit (hence
not a backtick). -/
theorem parseNumber_consumes (l txt rest : List Char)
    (h : parseNumber l = some (txt, rest)) : ConsumesTo l rest := by
  rw [parseNumber] at h
  rcases hss : signSplit l with ⟨sg, l1⟩
  rw [hss] at h
  dsimp only at h
  have hsign : l = sg ++ l1 := by
    cases l with
    | nil =>
      rw [signSplit] at hss
      cases hss
      rfl
    | cons c t =>
      rw [signSplit] at hss
      by_cases hc : c = '-'
      · rw [if_pos hc] at hss
        cases hss
        rw [hc]
        rfl
      · rw [if_neg hc] at hss
        cases hss
        rfl
  clear hss
  cases hi : parseIntPart l1 with
  | none => rw [hi] at h; exact absurd h (by simp)
  | some pri =>
    obtain ⟨ip, r1⟩ := pri
    rw [hi] at h
    dsimp only at h
    obtain ⟨hl1, pI, cI, hipEq, hcI⟩ := parseIntPart_consumes _ _ _ hi
    cases hf : parseFracPart r1 with
    | none => rw [hf] at h; exact absurd h (by simp)
    | some prf =>
      obtain ⟨fp, r2⟩ := prf
      rw [hf] at h
      dsimp only at h
      cases he : parseExpPart r2 with
      | none => rw [he] at h; exact absurd h (by simp)
      | some pre2 =>
        obtain ⟨ep, r3⟩ := pre2
        rw [he] at h
        dsimp only at h
        simp only [Option.some.injEq, Prod.mk.injEq] at h
        rw [← h.2]
        rcases parseExpPart_consumes _ _ _ he with ⟨hep, hr2⟩ | ⟨hl3, pE, cE, hepEq, hcE⟩
        · rw [hr2]
          rcases parseFracPart_consumes _ _ _ hf with ⟨hfp, hr1⟩ | ⟨hl2, pF, cF, hfpEq, hcF⟩
          · rw [hr1]
            rw [hsign, hl1, hipEq]
            have hassoc : sg ++ ((pI ++ [cI]) ++ r1) =
                (sg ++ pI) ++ cI :: r1 := by simp
            rw [hassoc]
            exact consumesTo_single cI _ r1 (digit_ne_btick cI hcI)
          · rw [hsign, hl1, hl2, hfpEq]
            have hassoc : sg ++ (ip ++ ((pF ++ [cF]) ++ r2)) =
                (sg ++ ip ++ pF) ++ cF :: r2 := by simp
            rw [hassoc]
            exact consumesTo_single cF _ r2 (digit_ne_btick cF hcF)
        · rcases parseFracPart_consumes _ _ _ hf with ⟨hfp, hr1⟩ | ⟨hl2, pF, cF, hfpEq, hcF⟩
          · rw [hsign, hl1, ← hr1, hl3, hepEq]
            have hassoc : sg ++ (ip ++ ((pE ++ [cE]) ++ r3)) =
                (sg ++ ip ++ pE) ++ cE :: r3 := by simp
            rw [hassoc]
            exact consumesTo_single cE _ r3 (digit_ne_btick cE hcE)
          · rw [hsign, hl1, hl2, hl3, hepEq]
            have hassoc : sg ++ (ip ++ (fp ++ ((pE ++ [cE]) ++ r3))) =
                (sg ++ ip ++ fp ++ pE) ++ cE :: r3 := by simp
            rw [hassoc]
            exact consumesTo_single cE _ r3 (digit_ne_btick cE hcE)

/-- Keyword matching consumes exactly the keyword. -/
theorem matchKeyword_consumes :
    ∀ (kw l r : List Char), matchKeyword kw l = some r → l = kw ++ r := by
  intro kw
  induction kw with
  | nil =>
    intro l r h
    rw [matchKeyword] at h
    simp only [Option.some.injEq] at h
    rw [h]; rfl
  | cons k ks ih =>
    intro l r h
    cases l with
    | nil => simp [matchKeyword] at h
    | cons c cs =>
      rw [matchKeyword] at h
      by_cases hk : k = c
      · rw [if_pos hk] at h
        rw [ih cs r h, hk]
        rfl
      · rw [if_neg hk] at h; exact absurd h (by simp)

theorem parseMembersNil (fuel : Nat) (acc : List (String × JVal)) :
    parseMembers fuel [] acc = none := by
  cases fuel <;> rfl

theorem parseValueNil (fuel : Nat) : parseValue fuel [] = none := by
  cases fuel <;> rfl

theorem parseElemsNil (fuel : Nat) (acc : List JVal) :
    parseElems fuel [] acc = none := by
  cases fuel with
  | zero => rfl
  | succ f => rw [parseElems, parseValueNil]

/-- Every successful parse consumes a non-empty chunk whose final character
is not a backtick (it is a closing quote, brace, bracket, keyword letter or
digit). -/
theorem parse_consumes : ∀ fuel : Nat,
    (∀ l v rest, parseValue fuel l = some (v, rest) → ConsumesTo l rest) ∧
    (∀ l v rest, parseObjBody fuel l = some (v, rest) → ConsumesTo l rest) ∧
    (∀ l acc v rest, parseMembers fuel l acc = some (v, rest) →
      ConsumesTo l rest) ∧
    (∀ l v rest, parseArrBody fuel l = some (v, rest) → ConsumesTo l rest) ∧
    (∀ l acc v rest, parseElems fuel l acc = some (v, rest) →
      ConsumesTo l rest) := by
  intro fuel
  induction fuel with
  | zero =>
    refine ⟨?_, ?_, ?_, ?_, ?_⟩
    · intro l v rest h; rw [parseValue] at h; exact absurd h (by simp)
    · intro l v rest h; rw [parseObjBody] at h; exact absurd h (by simp)
    · intro l acc v rest h; rw [parseMembers] at h; exact absurd h (by simp)
    · intro l v rest h; rw [parseArrBody] at h; exact absurd h (by simp)
    · intro l acc v rest h; rw [parseElems] at h; exact absurd h (by simp)
  | succ f ih =>
    obtain ⟨ihV, ihO, ihM, ihA, ihE⟩ := ih
    refine ⟨?_, ?_, ?_, ?_, ?_⟩
    · -- parseValue
      intro l v rest h
      cases l with
      | nil => rw [parseValue] at h; exact absurd h (by simp)
      | cons c t =>
        rw [parseValue] at h
        by_cases h1 : c = '"'
        · rw [if_pos h1] at h
          cases hs : parseStringBody [] t with
          | none => rw [hs] at h; exact absurd h (by simp)
          | some pr =>
            obtain ⟨s, r⟩ := pr
            rw [hs] at h
            dsimp only at h
            simp only [Option.some.injEq, Prod.mk.injEq] at h
            obtain ⟨pre, hp⟩ := parseStringBody_consumes2 [] t s r hs
            rw [← h.2]
            subst h1
            rw [hp]
            exact consumesTo_cons_pre '"' _ _
              (consumesTo_single '"' pre r (by decide))
        · rw [if_neg h1] at h
          by_cases h2 : c = '{'
          · rw [if_pos h2] at h
            exact consumesTo_cons_pre c _ _
              (ConsumesTo.viaSkipWs t rest (ihO _ _ _ h))
          · rw [if_neg h2] at h
            by_cases h3 : c = '['
            · rw [if_pos h3] at h
              exact consumesTo_cons_pre c _ _
                (ConsumesTo.viaSkipWs t rest (ihA _ _ _ h))
            · rw [if_neg h3] at h
              by_cases h4 : c = 't'
              · rw [if_pos h4] at h
                cases hk : matchKeyword ['r', 'u', 'e'] t with
                | none => rw [hk] at h; exact absurd h (by simp)
                | some r =>
                  rw [hk] at h
                  dsimp only at h
                  simp only [Option.some.injEq, Prod.mk.injEq] at h
                  rw [← h.2, matchKeyword_consumes _ _ _ hk]
                  exact consumesTo_single 'e' [c, 'r', 'u'] r (by decide)
              · rw [if_neg h4] at h
                by_cases h5 : c = 'f'
                · rw [if_pos h5] at h
                  cases hk : matchKeyword ['a', 'l', 's', 'e'] t with
                  | none => rw [hk] at h; exact absurd h (by simp)
                  | some r =>
                    rw [hk] at h
                    dsimp only at h
                    simp only [Option.some.injEq, Prod.mk.injEq] at h
                    rw [← h.2, matchKeyword_consumes _ _ _ hk]
                    exact consumesTo_single 'e' [c, 'a', 'l', 's'] r (by decide)
                · rw [if_neg h5] at h
                  by_cases h6 : c = 'n'
                  · rw [if_pos h6] at h
                    cases hk : matchKeyword ['u', 'l', 'l'] t with
                    | none => rw [hk] at h; exact absurd h (by simp)
                    | some r =>
                      rw [hk] at h
                      dsimp only at h
                      simp only [Option.some.injEq, Prod.mk.injEq] at h
                      rw [← h.2, matchKeyword_consumes _ _ _ hk]
                      exact consumesTo_single 'l' [c, 'u', 'l'] r (by decide)
                  · rw [if_neg h6] at h
                    by_cases h7 : c = '-' ∨ c.isDigit
                    · rw [if_pos h7] at h
                      cases hn : parseNumber (c :: t) with
                      | none => rw [hn] at h; exact absurd h (by simp)
                      | some pn =>
                        obtain ⟨txt, r⟩ := pn
                        rw [hn] at h
                        dsimp only at h
                        simp only [Option.some.injEq, Prod.mk.injEq] at h
                        rw [← h.2]
                        exact parseNumber_consumes _ _ _ hn
                    · rw [if_neg h7] at h; exact absurd h (by simp)
    · -- parseObjBody
      intro l v rest h
      cases l with
      | nil =>
        rw [parseObjBody] at h
        rw [parseMembersNil] at h
        exact absurd h (by simp)
      | cons c r =>
        rw [parseObjBody] at h
        by_cases hc : c = '}'
        · rw [if_pos hc] at h
          simp only [Option.some.injEq, Prod.mk.injEq] at h
          rw [← h.2]
          subst hc
          exact consumesTo_single '}' [] r (by decide)
        · rw [if_neg hc] at h
          exact ihM _ _ _ _ h
    · -- parseMembers
      intro l acc v rest h
      cases l with
      | nil => rw [parseMembersNil] at h; exact absurd h (by simp)
      | cons c t =>
        rw [parseMembers] at h
        by_cases hc : c = '"'
        · rw [if_pos hc] at h
          cases hs : parseStringBody [] t with
          | none => rw [hs] at h; exact absurd h (by simp)
          | some pk =>
            obtain ⟨k, r1⟩ := pk
            rw [hs] at h
            dsimp only at h
            obtain ⟨preK, hpreK⟩ := parseStringBody_consumes2 [] t k r1 hs
            have hsuf1 : SufOf r1 (c :: t) := by
              refine sufOf_cons_pre c _ _ ?_
              exact ⟨preK ++ ['"'], by rw [hpreK]; simp⟩
            cases hw1 : skipWsL r1 with
            | nil => rw [hw1] at h; exact absurd h (by simp)
            | cons c2 r2 =>
              rw [hw1] at h
              dsimp only at h
              have hsuf2 : SufOf r2 (c :: t) := by
                refine SufOf.trans _ _ _ hsuf1 ?_
                obtain ⟨w, hw, _⟩ := skipWsL_split r1
                exact ⟨w ++ [c2], by rw [hw, hw1]; simp⟩
              by_cases hc2 : c2 = ':'
              · rw [if_pos hc2] at h
                cases hv : parseValue f (skipWsL r2) with
                | none => rw [hv] at h; exact absurd h (by simp)
                | some pv =>
                  obtain ⟨v1, r3⟩ := pv
                  rw [hv] at h
                  dsimp only at h
                  have hcv : ConsumesTo (skipWsL r2) r3 := ihV _ _ _ hv
                  have hsuf3 : SufOf r3 (c :: t) :=
                    SufOf.trans _ _ _
                      (SufOf.trans _ _ _ hsuf2 (sufOf_skipWs r2))
                      (ConsumesTo.sufOf _ _ hcv)
                  cases hw3 : skipWsL r3 with
                  | nil => rw [hw3] at h; exact absurd h (by simp)
                  | cons c3 r4 =>
                    rw [hw3] at h
                    dsimp only at h
                    have hsuf4 : SufOf r4 (c :: t) := by
                      refine SufOf.trans _ _ _ hsuf3 ?_
                      obtain ⟨w, hw, _⟩ := skipWsL_split r3
                      exact ⟨w ++ [c3], by rw [hw, hw3]; simp⟩
                    by_cases hc3 : c3 = ','
                    · rw [if_pos hc3] at h
                      exact ConsumesTo.compPre _ _ _
                        (SufOf.trans _ _ _ hsuf4 (sufOf_skipWs r4))
                        (ihM _ _ _ _ h)
                    · rw [if_neg hc3] at h
                      by_cases hc4 : c3 = '}'
                      · rw [if_pos hc4] at h
                        simp only [Option.some.injEq, Prod.mk.injEq] at h
                        rw [← h.2]
                        have hsufC : SufOf (c3 :: r4) (c :: t) := by
                          refine SufOf.trans _ _ _ hsuf3 ?_
                          obtain ⟨w, hw, _⟩ := skipWsL_split r3
                          exact ⟨w, by rw [hw, hw3]⟩
                        obtain ⟨P, hP⟩ := hsufC
                        rw [hP]
                        subst hc4
                        exact consumesTo_single '}' P r4 (by decide)
                      · rw [if_neg hc4] at h; exact absurd h (by simp)
              · rw [if_neg hc2] at h; exact absurd h (by simp)
        · rw [if_neg hc] at h; exact absurd h (by simp)
    · -- parseArrBody
      intro l v rest h
      cases l with
      | nil =>
        rw [parseArrBody, parseElemsNil] at h
        exact absurd h (by simp)
      | cons c r =>
        rw [parseArrBody] at h
        by_cases hc : c = ']'
        · rw [if_pos hc] at h
          simp only [Option.some.injEq, Prod.mk.injEq] at h
          rw [← h.2]
          subst hc
          exact consumesTo_single ']' [] r (by decide)
        · rw [if_neg hc] at h
          exact ihE _ _ _ _ h
    · -- parseElems
      intro l acc v rest h
      rw [parseElems] at h
      cases hv : parseValue f l with
      | none => rw [hv] at h; exact absurd h (by simp)
      | some pv =>
        obtain ⟨v1, r1⟩ := pv
        rw [hv] at h
        dsimp only at h
        have hcv : ConsumesTo l r1 := ihV _ _ _ hv
        have hsuf1 : SufOf r1 l := ConsumesTo.sufOf _ _ hcv
        cases hw1 : skipWsL r1 with
        | nil => rw [hw1] at h; exact absurd h (by simp)
        | cons c2 r2 =>
          rw [hw1] at h
          dsimp only at h
          have hsuf2 : SufOf r2 l := by
            refine SufOf.trans _ _ _ hsuf1 ?_
            obtain ⟨w, hw, _⟩ := skipWsL_split r1
            exact ⟨w ++ [c2], by rw [hw, hw1]; simp⟩
          by_cases hc2 : c2 = ','
          · rw [if_pos hc2] at h
            exact ConsumesTo.compPre _ _ _
              (SufOf.trans _ _ _ hsuf2 (sufOf_skipWs r2))
              (ihE _ _ _ _ h)
          · rw [if_neg hc2] at h
            by_cases hc3 : c2 = ']'
            · rw [if_pos hc3] at h
              simp only [Option.some.injEq, Prod.mk.injEq] at h
              rw [← h.2]
              have hsufC : SufOf (c2 :: r2) l := by
                refine SufOf.trans _ _ _ hsuf1 ?_
                obtain ⟨w, hw, _⟩ := skipWsL_split r1
                exact ⟨w, by rw [hw, hw1]⟩
              obtain ⟨P, hP⟩ := hsufC
              rw [hP]
              subst hc3
              exact consumesTo_single ']' P r2 (by decide)
            · rw [if_neg hc3] at h; exact absurd h (by simp)

end ConsumptionLemmas

section TrimFenceLemmas

theorem parseValue_btick (fuel : Nat) (t : List Char) :
    parseValue fuel (btick :: t) = none := by
  cases fuel <;> rfl

theorem skipWsL_idem (l : List Char) : skipWsL (skipWsL l) = skipWsL l := by
  cases h : skipWsL l with
  | nil => rfl
  | cons c t => exact skipWsL_cons_not_ws c t (skipWsL_head_not_ws l c t h)

theorem dropTrailWs_idem (l : List Char) :
    dropTrailWs (dropTrailWs l) = dropTrailWs l := by
  have h := skipWsL_idem l.reverse
  rw [dropTrailWs, dropTrailWs, List.reverse_reverse]
  exact congrArg _ h

theorem skipWsL_dropTrailWs_skipWsL (l : List Char) :
    skipWsL (dropTrailWs (skipWsL l)) = dropTrailWs (skipWsL l) := by
  cases h : skipWsL l with
  | nil => rfl
  | cons c t =>
    have hc : isWsChar c = false := skipWsL_head_not_ws l c t h
    rcases dropTrailWs_head c t with hd | ⟨t2, hd⟩
    · rw [hd]; rfl
    · rw [hd]; exact skipWsL_cons_not_ws c t2 hc

theorem trimChars_idem (l : List Char) :
    trimChars (trimChars l) = trimChars l := by
  rw [trimChars, trimChars, skipWsL_dropTrailWs_skipWsL, dropTrailWs_idem]

theorem jsonParseL_trim (l : List Char) :
    jsonParseL (trimChars l) = jsonParseL l := by
  rw [jsonParseL, jsonParseL, trimChars_idem]

theorem hasPrefixL_append_imp :
    ∀ (p q l : List Char), hasPrefixL (p ++ q) l = true →
      hasPrefixL p l = true := by
  intro p
  induction p with
  | nil => intro q l _; rfl
  | cons x xs ih =>
    intro q l h
    cases l with
    | nil => rw [List.cons_append, hasPrefixL] at h; exact absurd h (by simp)
    | cons c cs =>
      rw [List.cons_append, hasPrefixL] at h
      rw [hasPrefixL]
      simp only [Bool.and_eq_true] at h ⊢
      exact ⟨h.1, ih q cs h.2⟩

theorem hasPrefixL_self_append (p r : List Char) :
    hasPrefixL p (p ++ r) = true := by
  induction p with
  | nil => rfl
  | cons x xs ih => simp [hasPrefixL, ih]

theorem hasPrefixL_fence3_shape (l : List Char)
    (h : hasPrefixL fence3 l = true) :
    ∃ t, l = btick :: btick :: btick :: t := by
  cases l with
  | nil => simp [fence3, hasPrefixL] at h
  | cons a l1 =>
    cases l1 with
    | nil => simp [fence3, hasPrefixL] at h
    | cons b l2 =>
      cases l2 with
      | nil => simp [fence3, hasPrefixL] at h
      | cons d l3 =>
        simp only [fence3, hasPrefixL, Bool.and_eq_true, decide_eq_true_eq] at h
        obtain ⟨h1, h2, h3, _⟩ := h
        subst h1; subst h2; subst h3
        exact ⟨l3, rfl⟩

theorem hasPrefixL_fence3_cons_false (c : Char) (r : List Char)
    (hc : c ≠ btick) : hasPrefixL fence3 (c :: r) = false := by
  simp only [fence3, hasPrefixL, Bool.and_eq_false_iff]
  left
  simp only [decide_eq_false_iff_not]
  exact fun h => hc h.symm

theorem jsonParseL_fence_start (l : List Char)
    (h : hasPrefixL fence3 l = true) : jsonParseL l = none := by
  obtain ⟨t, rfl⟩ := hasPrefixL_fence3_shape l h
  have hsk : skipWsL (btick :: btick :: btick :: t) =
      btick :: btick :: btick :: t :=
    skipWsL_cons_not_ws _ _ (by decide)
  rw [jsonParseL]
  rcases dropTrailWs_head btick (btick :: btick :: t) with hd | ⟨t2, hd⟩
  · rw [trimChars, hsk, hd]
    simp [parseValueNil]
  · rw [trimChars, hsk, hd]
    simp [parseValue_btick]

theorem hasSuffixL_fence3_shape (l : List Char)
    (h : hasSuffixL fence3 l = true) : ∃ t, l = t ++ [btick] := by
  rw [hasSuffixL] at h
  have hrev : hasPrefixL fence3 l.reverse = true := by
    rw [show fence3.reverse = fence3 from rfl] at h
    exact h
  obtain ⟨t, ht⟩ := hasPrefixL_fence3_shape l.reverse hrev
  refine ⟨(btick :: btick :: t).reverse, ?_⟩
  have h2 := congrArg List.reverse ht
  rw [List.reverse_reverse] at h2
  rw [h2]
  simp

theorem hasSuffixL_self (p x : List Char) : hasSuffixL p (x ++ p) = true := by
  rw [hasSuffixL, List.reverse_append]
  exact hasPrefixL_self_append p.reverse x.reverse

theorem getLast_concat_form (s : List Char) (c : Char)
    (h : s.getLast? = some c) : ∃ s0, s = s0 ++ [c] := by
  cases hs : s.reverse with
  | nil =>
    have : s = [] := by
      have := congrArg List.reverse hs
      simpa using this
    subst this
    simp at h
  | cons b r =>
    have hb : b = c := by
      have hh : s.reverse.head? = some c := by rw [List.head?_reverse]; exact h
      rw [hs] at hh
      simpa using hh
    refine ⟨r.reverse, ?_⟩
    have h2 := congrArg List.reverse hs
    rw [List.reverse_reverse] at h2
    rw [h2, hb]
    simp

theorem dropTrailWs_append_ws (A : List Char) (c : Char)
    (hc : isWsChar c = true) : dropTrailWs (A ++ [c]) = dropTrailWs A := by
  rw [dropTrailWs, dropTrailWs, List.reverse_append]
  simp only [List.reverse_cons, List.reverse_nil, List.nil_append,
    List.singleton_append]
  rw [List.dropWhile, hc]

theorem dropWhileWs_append_of_ne_nil (A B : List Char)
    (h : A.dropWhile isWsChar ≠ []) :
    (A ++ B).dropWhile isWsChar = A.dropWhile isWsChar ++ B := by
  induction A with
  | nil => exact absurd rfl h
  | cons a t ih =>
    by_cases ha : isWsChar a = true
    · have h2 : List.dropWhile isWsChar t ≠ [] := by
        rw [List.dropWhile_cons, if_pos ha] at h
        exact h
      rw [List.cons_append, List.dropWhile_cons, if_pos ha,
        List.dropWhile_cons, if_pos ha]
      exact ih h2
    · rw [List.cons_append, List.dropWhile_cons, if_neg ha,
        List.dropWhile_cons, if_neg ha]
      rfl

theorem jsonParseL_trim_ne_nil (l : List Char) (v : JVal)
    (h : jsonParseL l = some v) : trimChars l ≠ [] := by
  intro hnil
  rw [jsonParseL, hnil] at h
  simp [parseValueNil] at h

theorem jsonParseL_no_fence_end (l : List Char) (v : JVal)
    (h : jsonParseL l = some v) : hasSuffixL fence3 l = false := by
  rcases Bool.eq_false_or_eq_true (hasSuffixL fence3 l) with hb | hb
  case inr => exact hb
  obtain ⟨t0, rfl⟩ := hasSuffixL_fence3_shape _ hb
  exfalso
  have hbt : btick ∈ t0 ++ [btick] := by simp
  have hskne : skipWsL (t0 ++ [btick]) ≠ [] := by
    intro hnil
    have hall := List.dropWhile_eq_nil_iff.mp hnil
    exact absurd (hall btick hbt) (by decide)
  obtain ⟨w, hw, _⟩ := skipWsL_split (t0 ++ [btick])
  have hlast : (skipWsL (t0 ++ [btick])).getLast? = some btick := by
    have h1 : (w ++ skipWsL (t0 ++ [btick])).getLast? =
        (skipWsL (t0 ++ [btick])).getLast? :=
      List.getLast?_append_of_ne_nil w hskne
    rw [← hw] at h1
    rw [List.getLast?_concat] at h1
    exact h1.symm
  obtain ⟨s0, hs0⟩ := getLast_concat_form _ _ hlast
  have hT : trimChars (t0 ++ [btick]) = s0 ++ [btick] := by
    rw [trimChars, hs0]
    exact dropTrailWs_append_not_ws s0 btick (by decide)
  rw [jsonParseL, hT] at h
  cases hp : parseValue (3 * (s0 ++ [btick]).length + 8) (s0 ++ [btick]) with
  | none => rw [hp] at h; simp at h
  | some pv =>
    obtain ⟨v1, rest⟩ := pv
    rw [hp] at h
    dsimp only at h
    by_cases hrest : skipWsL rest = []
    · have hcons := (parse_consumes _).1 _ _ _ hp
      obtain ⟨pre, c, hpc, hcb⟩ := hcons
      cases rest with
      | nil =>
        have h1 : (s0 ++ [btick]).getLast? = some btick := List.getLast?_concat _
        have h2 : (s0 ++ [btick]).getLast? = some c := by
          rw [hpc]
          exact List.getLast?_concat _
        rw [h1] at h2
        simp only [Option.some.injEq] at h2
        exact hcb h2.symm
      | cons r0 rr =>
        have hall := List.dropWhile_eq_nil_iff.mp hrest
        have hgl : (s0 ++ [btick]).getLast? = (r0 :: rr).getLast? := by
          rw [hpc]
          rw [show pre ++ c :: r0 :: rr = (pre ++ [c]) ++ r0 :: rr by simp]
          exact List.getLast?_append_of_ne_nil _ (by simp)
        rw [List.getLast?_concat] at hgl
        obtain ⟨s1, hs1⟩ := getLast_concat_form (r0 :: rr) btick hgl.symm
        have hmem : btick ∈ r0 :: rr := by rw [hs1]; simp
        exact absurd (hall btick hmem) (by decide)
    · rw [if_neg hrest] at h
      simp at h

/-- When the input parses as JSON, the fence-stripping of `safeParseJSON`
reduces to a plain trim. -/
theorem stripFencesL_of_parse (l : List Char) (v : JVal)
    (h : jsonParseL l = some v) : stripFencesL l = trimChars l := by
  have hf3 : hasPrefixL fence3 l = false := by
    rcases Bool.eq_false_or_eq_true (hasPrefixL fence3 l) with hb | hb
    · rw [jsonParseL_fence_start l hb] at h; exact absurd h (by simp)
    · exact hb
  have hfj : hasPrefixL fenceJson l = false := by
    rcases Bool.eq_false_or_eq_true (hasPrefixL fenceJson l) with hb | hb
    · have h2 := hasPrefixL_append_imp fence3 ['j', 's', 'o', 'n'] l hb
      rw [h2] at hf3
      exact absurd hf3 (by simp)
    · exact hb
  have hsf : hasSuffixL fence3 l = false := jsonParseL_no_fence_end l v h
  rw [stripFencesL]
  simp only [hfj, hf3, hsf, Bool.false_eq_true, if_false]

theorem skipWsL_cons_ws (c : Char) (t : List Char) (hc : isWsChar c = true) :
    skipWsL (c :: t) = skipWsL t := by
  rw [skipWsL, List.dropWhile_cons, if_pos hc]
  rfl

/-- A successfully parsed input starts (after leading whitespace) with a
non-whitespace, non-backtick character. -/
theorem skipWs_head_form (l : List Char) (v : JVal)
    (h : jsonParseL l = some v) :
    ∃ d t, skipWsL l = d :: t ∧ d ≠ btick ∧ isWsChar d = false := by
  cases hsk : skipWsL l with
  | nil =>
    exfalso
    apply jsonParseL_trim_ne_nil l v h
    rw [trimChars, hsk]
    rfl
  | cons d t =>
    have hdw : isWsChar d = false := skipWsL_head_not_ws l d t hsk
    refine ⟨d, t, rfl, ?_, hdw⟩
    intro hd
    subst hd
    rcases dropTrailWs_head btick t with hd2 | ⟨t3, hd2⟩
    · apply jsonParseL_trim_ne_nil l v h
      rw [trimChars, hsk, hd2]
    · rw [jsonParseL, trimChars, hsk, hd2] at h
      rw [parseValue_btick] at h
      simp at h

/-- Fence-stripping a fence-wrapped input recovers the wrapped body (up to
the final trim). -/
theorem stripFencesL_fence_wrap (j : List Char) (v : JVal)
    (h : jsonParseL j = some v) :
    stripFencesL (fenceJson ++ '\n' :: (j ++ '\n' :: fence3)) =
      trimChars j := by
  obtain ⟨d, t, hsk, hdb, hdw⟩ := skipWs_head_form j v h
  have hs1 : skipWsL ((fenceJson ++ '\n' :: (j ++ '\n' :: fence3)).drop 7) =
      d :: (t ++ '\n' :: fence3) := by
    rw [show (7 : Nat) = fenceJson.length from rfl, List.drop_left]
    rw [skipWsL_cons_ws '\n' _ (by decide)]
    have hne : j.dropWhile isWsChar ≠ [] := by
      rw [show j.dropWhile isWsChar = skipWsL j from rfl, hsk]
      simp
    rw [show skipWsL (j ++ '\n' :: fence3) =
        (j ++ '\n' :: fence3).dropWhile isWsChar from rfl]
    rw [dropWhileWs_append_of_ne_nil j ('\n' :: fence3) hne]
    rw [show j.dropWhile isWsChar = skipWsL j from rfl, hsk]
    rfl
  rw [stripFencesL]
  rw [hasPrefixL_self_append fenceJson]
  simp only [if_true]
  rw [hs1]
  rw [hasPrefixL_fence3_cons_false d _ hdb]
  simp only [Bool.false_eq_true, if_false]
  have hform : d :: (t ++ '\n' :: fence3) = ((d :: t) ++ ['\n']) ++ fence3 := by
    simp
  rw [hform]
  rw [hasSuffixL_self fence3 ((d :: t) ++ ['\n'])]
  simp only [if_true]
  have hlen : (((d :: t) ++ ['\n']) ++ fence3).length - 3 =
      ((d :: t) ++ ['\n']).length := by
    simp [fence3]
  rw [hlen, List.take_left]
  rw [dropTrailWs_append_ws (d :: t) '\n' (by decide)]
  have hdt : dropTrailWs (d :: t) = trimChars j := by
    rw [trimChars, hsk]
  rw [hdt, trimChars_idem]

end TrimFenceLemmas

/-- C8: `safeParseJSON` (synthesizer.ts, lines 518-528) is the tolerant
parse-or-fallback utility.  (1) If the input is valid JSON, it returns the
exact parsed structure.  (2) If the input is valid JSON wrapped in markdown
code fences, it also returns the exact parsed structure.  (3) For every
other string — empty, malformed, or fenced garbage — it returns the
caller-supplied fallback value, never raising. -/
theorem safeParseJSON_tolerant (s : String) (fb : JVal) :
    (∀ v, jsonParse s = some v → safeParseJSON s fb = v) ∧
    (∀ (j : String) (v : JVal), jsonParse j = some v →
      s = "```json\n" ++ j ++ "\n```" → safeParseJSON s fb = v) ∧
    (jsonParseL (stripFencesL s.data) = none → safeParseJSON s fb = fb) := by
  refine ⟨?_, ?_, ?_⟩
  · intro v h
    rw [jsonParse] at h
    by_cases hs : s = ""
    · subst hs
      rw [show jsonParseL ("" : String).data = none from rfl] at h
      exact absurd h (by simp)
    · rw [safeParseJSON, if_neg hs]
      rw [stripFencesL_of_parse s.data v h]
      rw [jsonParseL_trim, h]
  · intro j v h hwrap
    rw [jsonParse] at h
    have hdata : s.data = fenceJson ++ '\n' :: (j.data ++ '\n' :: fence3) := by
      rw [hwrap]
      rw [String.data_append, String.data_append]
      rfl
    have hne : s ≠ "" := by
      intro hnil
      rw [hnil] at hdata
      exact absurd hdata (by simp)
    rw [safeParseJSON, if_neg hne, hdata]
    rw [stripFencesL_fence_wrap j.data v h]
    rw [jsonParseL_trim, h]
  · intro h
    rw [safeParseJSON]
    by_cases hs : s = ""
    · rw [if_pos hs]
    · rw [if_neg hs, h]

/-- Witness for C8: a fenced JSON object parses to its structure; garbage
falls back. -/
theorem safeParseJSON_tolerant_witness :
    safeParseJSON "```json\n\x7b\"a\": 1\x7d\n```" (JVal.jstr "fb") =
        JVal.jobj [("a", JVal.jnum "1")] ∧
      safeParseJSON "\x7b\"a\": 1\x7d" (JVal.jstr "fb") =
        JVal.jobj [("a", JVal.jnum "1")] ∧
      safeParseJSON "garbage" (JVal.jstr "fb") = JVal.jstr "fb" := by
  refine ⟨?_, ?_, ?_⟩
  · exact (safeParseJSON_tolerant "```json\n\x7b\"a\": 1\x7d\n```"
      (JVal.jstr "fb")).2.1 "\x7b\"a\": 1\x7d"
      (JVal.jobj [("a", JVal.jnum "1")]) (by rfl) (by rfl)
  · exact (safeParseJSON_tolerant "\x7b\"a\": 1\x7d" (JVal.jstr "fb")).1
      (JVal.jobj [("a", JVal.jnum "1")]) (by rfl)
  · exact (safeParseJSON_tolerant "garbage" (JVal.jstr "fb")).2.2 (by rfl)

/-! ### The multi-agent workflow

Embeds `runMultiAgentWorkflow` from `src/services/synthesizer.ts`, lines
717-918.  Each `generateWithFallback` call made by the workflow is
abstracted by an oracle `Nat → Except String (String × String)` giving the
outcome (text and provider name) of the n-th facade call, in issue order:
call 0 = architect, call 1 = visionary (when no blueprint), then per WRITER
task: writer, critic, consistency-checker.  Prompt strings only affect what
is sent to the oracle, so their assembly (style context, character/world
rosters, persona modifier) is not tracked.  Log `metadata` payloads are
likewise dropped; agents and statuses keep their source string values. -/

/-- Embeds `BlueprintSection` (part_000): `stype` is the `type` field,
`'chapter' | 'scene'`. -/
structure BlueprintSection where
  title : String
  description : String
  stype : String

/-- The `Blueprint` fields `runMultiAgentWorkflow` consults for control
flow (characters/locations/items only shape prompt text). -/
structure Blueprint where
  sections : List BlueprintSection
  genre : Option String
  tone : Option String
  personaId : Option String

/-- The `Project` fields the workflow consults for control flow. -/
structure ProjectW where
  blueprint : Option Blueprint

/-- Embeds `interface ArchitectTask` (synthesizer.ts, lines 691-696). -/
structure WTask where
  role : String
  description : String
  context_script : String
  title : Option String

/-- Embeds `enum BlockType` (part_000, lines 76-83). -/
inductive BlockTypeW where
  | text
  | image
  | note
  | chapter
  | plan
  | artifact
deriving DecidableEq

/-- A produced `ContentBlock` draft: the fields `runMultiAgentWorkflow`
fills (synthesizer.ts, lines 896-909); `status` is always `draft`. -/
structure Draft where
  btype : BlockTypeW
  content : String
  agentSignature : String
  modelUsed : String
  prompt : String
  title : Option String
  chapterNumber : Option Nat
deriving DecidableEq

/-- One emitted `AgentLog` entry: agent role, message and status (the
enum's string values). -/
structure LogEntry where
  agent : String
  message : String
  status : String
deriving DecidableEq

/-- JavaScript truthiness on parsed JSON values; a number is falsy exactly
when its mantissa digits are all zero. -/
def jvalTruthy : JVal → Bool
  | JVal.jnull => false
  | JVal.jbool b => b
  | JVal.jnum t => !((t.data.filter Char.isDigit).all (fun c => c = '0'))
  | JVal.jstr s => !(s = "")
  | JVal.jarr _ => true
  | JVal.jobj _ => true

mutual

/-- JavaScript `String(v)` on parsed JSON values (numbers keep their
source text; arrays join with commas, objects print as `[object Object]`). -/
def jsToString : JVal → String
  | JVal.jnull => "null"
  | JVal.jbool b => if b then "true" else "false"
  | JVal.jnum t => t
  | JVal.jstr s => s
  | JVal.jarr l => String.intercalate "," (jsToStringList l)
  | JVal.jobj _ => "[object Object]"

/-- Stringify a list of JSON values. -/
def jsToStringList : List JVal → List String
  | [] => []
  | v :: rest => jsToString v :: jsToStringList rest

end

/-- Duck-typed string field access with the empty string for missing or
non-string fields (how the workflow reads `task.role` etc. from the parsed
architect JSON). -/
def strFieldD (v : JVal) (k : String) : String :=
  match jlookup v k with
  | some (JVal.jstr s) => s
  | _ => ""

/-- Optional string field access (`task.title`). -/
def optStrField (v : JVal) (k : String) : Option String :=
  match jlookup v k with
  | some (JVal.jstr s) => some s
  | _ => none

/-- Decode one element of the architect plan's `tasks` array into the
`ArchitectTask` shape. -/
def decodeTask (e : JVal) : WTask :=
  { role := strFieldD e "role", description := strFieldD e "description",
    context_script := strFieldD e "context_script",
    title := optStrField e "title" }

/-- The fallback plan object `{ tasks: [] }` supplied to `safeParseJSON`
at synthesizer.ts line 777. -/
def fallbackPlan : JVal := JVal.jobj [("tasks", JVal.jarr [])]

/-- The planning-phase check `!plan.tasks || !Array.isArray(plan.tasks)`
(synthesizer.ts line 778): the run proceeds exactly when the parsed plan
has an array `tasks` field (arrays are always truthy, non-arrays fail the
`Array.isArray` test).  Returns the raw task array, or `none` when the
failure branch fires. -/
def shallowTasks (text : String) : Option (List JVal) :=
  match jlookup (safeParseJSON text fallbackPlan) "tasks" with
  | some (JVal.jarr l) => some l
  | _ => none

/-- The `{ content: "" }` fallback for writer output (line 838). -/
def fallbackWriter : JVal := JVal.jobj [("content", JVal.jstr "")]

/-- The content-string extraction of synthesizer.ts lines 838-848: parse
the writer text tolerantly, then take `content` as a string, joined array,
or `String(v)` for other truthy values, else the empty string. -/
def contentOf (text : String) : String :=
  let output := safeParseJSON text fallbackWriter
  match jlookup output "content" with
  | some (JVal.jstr s) => s
  | some (JVal.jarr l) => String.intercalate "\n" (jsToStringList l)
  | some v => if jvalTruthy v then jsToString v else ""
  | none => ""

/-- Boolean infix test on character lists. -/
def isInfixL (p : List Char) : List Char → Bool
  | [] => hasPrefixL p []
  | c :: t => hasPrefixL p (c :: t) || isInfixL p t

/-- ASCII lowercase of a string, modelling `toLowerCase()`. -/
def toLowerS (s : String) : String := String.mk (s.data.map Char.toLower)

/-- `s.toLowerCase().includes('chapter')`. -/
def includesChapter (s : String) : Bool :=
  isInfixL "chapter".data (toLowerS s).data

/-- The chapter classification of synthesizer.ts lines 892-893:
`task.description.toLowerCase().includes('chapter') ||
task.title?.toLowerCase().includes('chapter')`. -/
def taskIsChapter (task : WTask) : Bool :=
  includesChapter task.description ||
    (match task.title with
     | some ti => includesChapter ti
     | none => false)

/-- `critique.approved` truthiness (line 883). -/
def critApproved (critique : JVal) : Bool :=
  match jlookup critique "approved" with
  | some v => jvalTruthy v
  | none => false

/-- `consistency.status === 'fail'` (line 885). -/
def consistencyFailed (consistency : JVal) : Bool :=
  match jlookup consistency "status" with
  | some (JVal.jstr s) => s = "fail"
  | _ => false

/-- The catch-all failure log (lines 912-915). -/
def pmFailLog : LogEntry :=
  ⟨"PROJECT_MANAGER", "Workflow encountered an error.", "failed"⟩

/-- The per-task writer failure log (line 851). -/
def writerFailLog : LogEntry :=
  ⟨"WRITER", "Failed to generate content.", "failed"⟩

/-- Result of the execution loop: drafts produced, logs emitted (in
order), and the next unused oracle call index. -/
structure ExecOut where
  blocks : List Draft
  logs : List LogEntry
  nextCall : Nat

/-- The execution phase (synthesizer.ts, lines 790-911): one iteration per
task; only WRITER tasks generate.  An oracle error models a
`generateWithFallback` rejection: the outer catch logs the
project-manager failure and the run returns the drafts produced so far. -/
def execTasks (oracle : Nat → Except String (String × String)) :
    List WTask → Nat → Nat → ExecOut
  | [], _, idx => ⟨[], [], idx⟩
  | task :: rest, chapterNumber, idx =>
    let execLog : LogEntry :=
      ⟨task.role, "Executing: " ++ task.description, "thinking"⟩
    if task.role = "WRITER" then
      match oracle idx with
      | Except.error _ => ⟨[], [execLog, pmFailLog], idx + 1⟩
      | Except.ok (wtext, wprov) =>
        let contentStr := contentOf wtext
        if contentStr = "" then
          let r := execTasks oracle rest chapterNumber (idx + 1)
          ⟨r.blocks, execLog :: writerFailLog :: r.logs, r.nextCall⟩
        else
          let prelogs : List LogEntry :=
            [⟨"WRITER", "Drafting content complete.", "success"⟩,
             ⟨"CRITIC", "Reviewing quality...", "thinking"⟩,
             ⟨"CONSISTENCY_CHECKER", "Verifying world facts...", "thinking"⟩]
          match oracle (idx + 1), oracle (idx + 2) with
          | Except.ok (ctext, _), Except.ok (stext, _) =>
            let criticLog : LogEntry :=
              ⟨"CRITIC",
               "Quality: " ++ (if critApproved (safeParseJSON ctext (JVal.jobj []))
                 then "Approved" else "Needs Polish"), "success"⟩
            let consisLog : LogEntry :=
              if consistencyFailed (safeParseJSON stext (JVal.jobj [])) then
                ⟨"CONSISTENCY_CHECKER", "Consistency Issues Found", "warning"⟩
              else
                ⟨"CONSISTENCY_CHECKER", "World Consistency Verified", "success"⟩
            let isChap := taskIsChapter task
            let draft : Draft :=
              ⟨if isChap then BlockTypeW.chapter else BlockTypeW.text,
               contentStr, "Writer Agent", wprov, task.description, task.title,
               if isChap then some chapterNumber else none⟩
            let r := execTasks oracle rest
              (if isChap then chapterNumber + 1 else chapterNumber) (idx + 3)
            ⟨draft :: r.blocks,
             execLog :: prelogs ++ criticLog :: consisLog :: r.logs,
             r.nextCall⟩
          | _, _ => ⟨[], execLog :: prelogs ++ [pmFailLog], idx + 3⟩
    else
      let r := execTasks oracle rest chapterNumber idx
      ⟨r.blocks, execLog :: r.logs, r.nextCall⟩

/-- Blueprint-derived plan (synthesizer.ts, lines 744-751): one WRITER
task per section of type `chapter`, in section order.  JavaScript
interpolation of a missing optional renders `undefined`. -/
def derivePlanFromBlueprint (bp : Blueprint) : List WTask :=
  (bp.sections.filter (fun s => s.stype = "chapter")).map (fun s =>
    { role := "WRITER",
      description := "Write " ++ s.title ++ ". " ++ s.description,
      context_script := "Genre: " ++ bp.genre.getD "undefined" ++ ", Tone: " ++
        bp.tone.getD "undefined" ++ ". Structure this as a " ++ s.stype ++ ".",
      title := some s.title })

/-- Planning-phase result: the plan, the logs, the next unused oracle call
index, and whether the run already terminated. -/
structure PlanOut where
  tasks : List WTask
  logs : List LogEntry
  nextCall : Nat
  abort : Bool

/-- The planning phase (synthesizer.ts, lines 736-788): with an approved
blueprint the plan is derived deterministically with no facade call;
otherwise architect and visionary calls run (concurrently in the source,
jointly awaited), the architect text is parsed tolerantly, and a plan
without an array task list terminates the run. -/
def planningPhase (oracle : Nat → Except String (String × String))
    (project : ProjectW) : PlanOut :=
  match project.blueprint with
  | some bp =>
    ⟨derivePlanFromBlueprint bp,
     [⟨"ARCHITECT", "Using approved blueprint plan.", "success"⟩], 0, false⟩
  | none =>
    let baseLogs : List LogEntry :=
      [⟨"PROJECT_MANAGER", "Initiating Parallel Planning Phase...", "thinking"⟩,
       ⟨"ARCHITECT", "Structuring narrative arc...", "thinking"⟩,
       ⟨"VISIONARY", "Defining stylistic palette...", "thinking"⟩]
    match oracle 0, oracle 1 with
    | Except.ok (atext, _), Except.ok (_, _) =>
      match shallowTasks atext with
      | none =>
        ⟨[], baseLogs ++
          [⟨"ARCHITECT", "Failed to generate a valid plan.", "failed"⟩],
         2, true⟩
      | some l =>
        ⟨l.map decodeTask,
         baseLogs ++
           [⟨"ARCHITECT",
             "Plan created with " ++ toString l.length ++ " tasks.",
             "success"⟩,
            ⟨"VISIONARY", "Style guide established.", "success"⟩],
         2, false⟩
    | _, _ => ⟨[], baseLogs ++ [pmFailLog], 2, true⟩

/-- The persona id list of `AGENT_PERSONAS` (part_010); `getPersonaById`
falls back to the first entry, `standard_vibe`. -/
def AGENT_PERSONA_IDS : List String :=
  ["standard_vibe", "fantasy_worldbuilder", "noir_detective",
   "scifi_futurist", "romance_poet", "horror_maestro", "young_adult"]

/-- Resolved persona id for a run. -/
def resolvePersonaId (id? : Option String) : String :=
  match id? with
  | some i => if i ∈ AGENT_PERSONA_IDS then i else "standard_vibe"
  | none => "standard_vibe"

/-- The persona announcement log (lines 794-797), emitted only for a
non-default persona. -/
def personaLogs (project : ProjectW) : List LogEntry :=
  let pid := resolvePersonaId (project.blueprint.bind (fun bp => bp.personaId))
  if pid = "standard_vibe" then []
  else [⟨"PROJECT_MANAGER", "Applying Agent Persona: " ++ pid, "success"⟩]

/-- A whole run's observable outcome. -/
structure RunOut where
  blocks : List Draft
  logs : List LogEntry

/-- Embeds `runMultiAgentWorkflow` (synthesizer.ts, lines 717-918). -/
def runMultiAgentWorkflow (oracle : Nat → Except String (String × String))
    (project : ProjectW) : RunOut :=
  let p := planningPhase oracle project
  if p.abort then ⟨[], p.logs⟩
  else
    let e := execTasks oracle p.tasks 1 p.nextCall
    ⟨e.blocks, p.logs ++ personaLogs project ++ e.logs⟩

/-- C4: with an approved blueprint, the planning phase derives the plan
deterministically: exactly one WRITER task per section of type `chapter`,
in section order (titles match section titles, one task per chapter
section), and no facade/model call is consumed (`nextCall = 0`); the run
proceeds to execution (no abort). -/
theorem blueprint_plan_deterministic
    (oracle : Nat → Except String (String × String))
    (project : ProjectW) (bp : Blueprint)
    (hbp : project.blueprint = some bp) :
    (planningPhase oracle project).tasks =
        (bp.sections.filter (fun s => s.stype = "chapter")).map (fun s =>
          ({ role := "WRITER",
             description := "Write " ++ s.title ++ ". " ++ s.description,
             context_script := "Genre: " ++ bp.genre.getD "undefined" ++
               ", Tone: " ++ bp.tone.getD "undefined" ++
               ". Structure this as a " ++ s.stype ++ ".",
             title := some s.title } : WTask)) ∧
      (planningPhase oracle project).nextCall = 0 ∧
      (planningPhase oracle project).abort = false ∧
      (∀ t ∈ (planningPhase oracle project).tasks, t.role = "WRITER") ∧
      (planningPhase oracle project).tasks.map (fun t => t.title) =
        (bp.sections.filter (fun s => s.stype = "chapter")).map
          (fun s => some s.title) ∧
      (planningPhase oracle project).tasks.length =
        (bp.sections.filter (fun s => s.stype = "chapter")).length := by
  rw [planningPhase, hbp]
  refine ⟨rfl, rfl, rfl, ?_, ?_, ?_⟩
  · intro t ht
    simp only [derivePlanFromBlueprint, List.mem_map] at ht
    obtain ⟨s, _, rfl⟩ := ht
    rfl
  · simp [derivePlanFromBlueprint, List.map_map]
  · simp [derivePlanFromBlueprint]

/-- Witness for C4: a blueprint with two chapter sections and one scene
section yields exactly the two chapter writer tasks, in order, with no
facade call. -/
theorem blueprint_plan_deterministic_witness :
    (planningPhase (fun _ => Except.error "unused")
        ⟨some ⟨[⟨"Intro", "d1", "chapter"⟩, ⟨"Interlude", "d2", "scene"⟩,
               ⟨"End", "d3", "chapter"⟩], none, none, none⟩⟩).tasks.map
        (fun t => t.title) = [some "Intro", some "End"] ∧
      (planningPhase (fun _ => Except.error "unused")
        ⟨some ⟨[⟨"Intro", "d1", "chapter"⟩, ⟨"Interlude", "d2", "scene"⟩,
               ⟨"End", "d3", "chapter"⟩], none, none, none⟩⟩).nextCall = 0 := by
  have h := blueprint_plan_deterministic (fun _ => Except.error "unused")
    ⟨some ⟨[⟨"Intro", "d1", "chapter"⟩, ⟨"Interlude", "d2", "scene"⟩,
           ⟨"End", "d3", "chapter"⟩], none, none, none⟩⟩
    ⟨[⟨"Intro", "d1", "chapter"⟩, ⟨"Interlude", "d2", "scene"⟩,
      ⟨"End", "d3", "chapter"⟩], none, none, none⟩ rfl
  exact ⟨h.2.2.2.2.1.trans (by rfl), h.2.1⟩

/-- Oracle for the C2 counterexample: the architect call returns
unparseable text, the visionary call succeeds, nothing else is called. -/
def c2Oracle : Nat → Except String (String × String) :=
  fun n =>
    if n = 0 then Except.ok ("garbage", "deepseek")
    else if n = 1 then Except.ok ("style notes", "gemini")
    else Except.error "unused"

/-- C2 counterexample.  The architect text "garbage" is not parseable JSON,
so by the claim the run should terminate as a failure; instead
`safeParseJSON` substitutes the fallback `{ tasks: [] }`, the
`!plan.tasks || !Array.isArray(plan.tasks)` guard passes (an empty array
is truthy and is an array), and the run completes with zero drafts, zero
failure-status log entries and two success-status entries — the "failure"
branch never fires, and the run is indistinguishable from a successful
empty run. -/
theorem workflow_unparseable_plan_cex :
    jsonParse "garbage" = none ∧
      (runMultiAgentWorkflow c2Oracle ⟨none⟩).blocks = [] ∧
      (runMultiAgentWorkflow c2Oracle ⟨none⟩).logs.filter
        (fun lg => lg.status = "failed") = [] ∧
      (runMultiAgentWorkflow c2Oracle ⟨none⟩).logs.filter
        (fun lg => lg.status = "success") =
        [⟨"ARCHITECT", "Plan created with 0 tasks.", "success"⟩,
         ⟨"VISIONARY", "Style guide established.", "success"⟩] := by
  exact ⟨rfl, rfl, rfl, rfl⟩

/-- C2, amended: for every run without a blueprint whose two planning
calls return text, (a) if the architect text parses to JSON without an
array task list, the run logs an ARCHITECT failure and produces zero
drafts; (b) if the task list is empty — in particular whenever the text is
unparseable, since the tolerant fallback is `{ tasks: [] }` — the run
still produces zero drafts but completes without any failure-status log.
In both cases no partial execution occurs (zero ContentBlockDrafts), but
only case (a) is an observable failure. -/
theorem workflow_empty_or_invalid_plan
    (oracle : Nat → Except String (String × String)) (project : ProjectW)
    (atext ap vtext vp : String)
    (hbp : project.blueprint = none)
    (h0 : oracle 0 = Except.ok (atext, ap))
    (h1 : oracle 1 = Except.ok (vtext, vp)) :
    (shallowTasks atext = none →
      (runMultiAgentWorkflow oracle project).blocks = [] ∧
      ∃ lg ∈ (runMultiAgentWorkflow oracle project).logs,
        lg.status = "failed") ∧
    (shallowTasks atext = some [] →
      (runMultiAgentWorkflow oracle project).blocks = [] ∧
      ∀ lg ∈ (runMultiAgentWorkflow oracle project).logs,
        lg.status ≠ "failed") := by
  constructor
  · intro hst
    rw [runMultiAgentWorkflow, planningPhase, hbp, h0, h1]
    dsimp only
    rw [hst]
    dsimp only
    refine ⟨rfl, ?_⟩
    refine ⟨⟨"ARCHITECT", "Failed to generate a valid plan.", "failed"⟩, ?_, rfl⟩
    simp
  · intro hst
    rw [runMultiAgentWorkflow, planningPhase, hbp, h0, h1]
    dsimp only
    rw [hst]
    dsimp only
    rw [personaLogs, hbp]
    dsimp only [Option.bind, resolvePersonaId]
    simp only [List.map_nil]
    rw [execTasks]
    constructor
    · rfl
    · intro lg hlg
      simp only [List.append_nil] at hlg
      fin_cases hlg <;> decide

/-- Witness for the amended C2 theorem, at the concrete counterexample
oracle: unparseable architect text gives zero drafts and no failure log. -/
theorem workflow_empty_or_invalid_plan_witness :
    (runMultiAgentWorkflow c2Oracle ⟨none⟩).blocks = [] ∧
      ∀ lg ∈ (runMultiAgentWorkflow c2Oracle ⟨none⟩).logs,
        lg.status ≠ "failed" := by
  exact (workflow_empty_or_invalid_plan c2Oracle ⟨none⟩ "garbage" "deepseek"
    "style notes" "gemini" rfl rfl rfl).2 (by rfl)

/-- Execution-loop invariant: every produced draft is classified as a
chapter exactly when its originating description or title mentions
"chapter" (case-insensitively), a draft carries a chapter number exactly
when it is chapter-classified, and the chapter numbers handed out are
consecutive starting from the running counter. -/
theorem execTasks_chapter_spec (oracle : Nat → Except String (String × String)) :
    ∀ (tasks : List WTask) (c idx : Nat),
      (∀ d ∈ (execTasks oracle tasks c idx).blocks,
        ((d.btype = BlockTypeW.chapter) ↔
          (includesChapter d.prompt ||
            (match d.title with
             | some ti => includesChapter ti
             | none => false)) = true) ∧
        (d.chapterNumber.isSome = true ↔ d.btype = BlockTypeW.chapter)) ∧
      ∃ k, (execTasks oracle tasks c idx).blocks.filterMap
        (fun d => d.chapterNumber) = List.range' c k := by
  intro tasks
  induction tasks with
  | nil =>
    intro c idx
    rw [execTasks]
    exact ⟨by intro d hd; simp at hd, ⟨0, rfl⟩⟩
  | cons task rest ih =>
    intro c idx
    rw [execTasks]
    dsimp only
    by_cases hrole : task.role = "WRITER"
    · rw [if_pos hrole]
      cases horc : oracle idx with
      | error e =>
        dsimp only
        exact ⟨by intro d hd; simp at hd, ⟨0, rfl⟩⟩
      | ok pr =>
        obtain ⟨wtext, wprov⟩ := pr
        dsimp only
        by_cases hct : contentOf wtext = ""
        · rw [if_pos hct]
          dsimp only
          exact ih c (idx + 1)
        · rw [if_neg hct]
          cases horc1 : oracle (idx + 1) with
          | error e1 =>
            dsimp only
            exact ⟨by intro d hd; simp at hd, ⟨0, rfl⟩⟩
          | ok pc =>
            obtain ⟨ctext, cprov⟩ := pc
            cases horc2 : oracle (idx + 2) with
            | error e2 =>
              dsimp only
              exact ⟨by intro d hd; simp at hd, ⟨0, rfl⟩⟩
            | ok ps2 =>
              obtain ⟨stext, sprov⟩ := ps2
              dsimp only
              by_cases hchap : taskIsChapter task = true
              · simp only [hchap, if_true]
                obtain ⟨hmem, k, hfm⟩ := ih (c + 1) (idx + 3)
                constructor
                · intro d hd
                  rcases List.mem_cons.mp hd with rfl | hd2
                  · constructor
                    · rw [taskIsChapter] at hchap
                      exact ⟨fun _ => hchap, fun _ => rfl⟩
                    · simp
                  · exact hmem d hd2
                · refine ⟨k + 1, ?_⟩
                  rw [List.filterMap_cons]
                  dsimp only
                  rw [hfm, List.range'_succ]
              · simp only [hchap, if_false, Bool.false_eq_true]
                obtain ⟨hmem, k, hfm⟩ := ih c (idx + 3)
                constructor
                · intro d hd
                  rcases List.mem_cons.mp hd with rfl | hd2
                  · constructor
                    · rw [taskIsChapter] at hchap
                      constructor
                      · intro hx; exact absurd hx (by simp)
                      · intro hx
                        exact absurd hx (by simp [hchap])
                    · simp
                  · exact hmem d hd2
                · refine ⟨k, ?_⟩
                  rw [List.filterMap_cons]
                  dsimp only
                  rw [hfm]
    · rw [if_neg hrole]
      dsimp only
      exact ih c idx

/-- C5: in every workflow run, each emitted ContentBlockDraft is
classified as a chapter exactly when its originating task description or
title contains "chapter" case-insensitively (the draft records them as
`prompt` and `title`), a draft carries a chapter number exactly when it is
chapter-classified, and the chapter numbers, in production order, are
exactly 1, 2, 3, … — consecutive from the run-local counter, regardless of
interleaved non-chapter tasks. -/
theorem workflow_chapter_classification
    (oracle : Nat → Except String (String × String)) (project : ProjectW) :
    (∀ d ∈ (runMultiAgentWorkflow oracle project).blocks,
      ((d.btype = BlockTypeW.chapter) ↔
        (includesChapter d.prompt ||
          (match d.title with
           | some ti => includesChapter ti
           | none => false)) = true) ∧
      (d.chapterNumber.isSome = true ↔ d.btype = BlockTypeW.chapter)) ∧
    (runMultiAgentWorkflow oracle project).blocks.filterMap
        (fun d => d.chapterNumber) =
      List.range' 1 (((runMultiAgentWorkflow oracle project).blocks.filterMap
        (fun d => d.chapterNumber)).length) := by
  rw [runMultiAgentWorkflow]
  dsimp only
  by_cases hab : (planningPhase oracle project).abort = true
  · rw [if_pos hab]
    exact ⟨by intro d hd; simp at hd, rfl⟩
  · rw [if_neg hab]
    dsimp only
    obtain ⟨hmem, k, hfm⟩ := execTasks_chapter_spec oracle
      (planningPhase oracle project).tasks 1
      (planningPhase oracle project).nextCall
    refine ⟨hmem, ?_⟩
    rw [hfm]
    simp [List.length_range']

/-- C7: in a run (without blueprint) whose plan holds two WRITER tasks, if
the first task's writer call yields empty content and the second yields
non-empty content (with both validation calls returning), the run produces
exactly one ContentBlockDraft — the second task's content — and exactly
one failure-status AgentLog entry, namely the per-task writer failure for
the empty task; the empty task is skipped, not the run aborted. -/
theorem workflow_empty_content_skipped
    (oracle : Nat → Except String (String × String)) (project : ProjectW)
    (atext ap vtext vp : String) (es : List JVal) (t1 t2 : WTask)
    (w1 p1 w2 p2 ct cp st sp : String)
    (hbp : project.blueprint = none)
    (h0 : oracle 0 = Except.ok (atext, ap))
    (h1 : oracle 1 = Except.ok (vtext, vp))
    (hts : shallowTasks atext = some es)
    (hdec : es.map decodeTask = [t1, t2])
    (hr1 : t1.role = "WRITER") (hr2 : t2.role = "WRITER")
    (h2 : oracle 2 = Except.ok (w1, p1)) (hw1 : contentOf w1 = "")
    (h3 : oracle 3 = Except.ok (w2, p2)) (hw2 : contentOf w2 ≠ "")
    (h4 : oracle 4 = Except.ok (ct, cp)) (h5 : oracle 5 = Except.ok (st, sp)) :
    (runMultiAgentWorkflow oracle project).blocks.map (fun d => d.content) =
        [contentOf w2] ∧
      (runMultiAgentWorkflow oracle project).blocks.length = 1 ∧
      (runMultiAgentWorkflow oracle project).logs.filter
        (fun lg => lg.status = "failed") = [writerFailLog] := by
  rw [runMultiAgentWorkflow, planningPhase, hbp, h0, h1]
  dsimp only
  rw [hts]
  dsimp only
  rw [personaLogs, hbp]
  dsimp only [Option.bind, resolvePersonaId]
  rw [hdec]
  rw [execTasks]
  dsimp only
  rw [if_pos hr1, h2]
  dsimp only
  rw [if_pos hw1]
  dsimp only
  rw [execTasks]
  dsimp only
  rw [if_pos hr2, h3]
  dsimp only
  rw [if_neg hw2, h4, h5]
  dsimp only
  rw [execTasks]
  dsimp only
  refine ⟨rfl, rfl, ?_⟩
  by_cases hcons : consistencyFailed (safeParseJSON st (JVal.jobj [])) = true
  · simp only [hcons, if_true]
    simp [List.filter, writerFailLog, pmFailLog]
  · simp only [hcons, if_false, Bool.false_eq_true]
    simp [List.filter, writerFailLog, pmFailLog]

/-- Oracle for the C7 witness: chapter-titled first task returns empty
writer content, second task returns a two-paragraph chapter. -/
def c7Oracle : Nat → Except String (String × String) :=
  fun n =>
    if n = 0 then
      Except.ok ("\x7b\"tasks\": [\x7b\"role\": \"WRITER\", \"description\": \"Write Chapter 1\", \"context_script\": \"c1\", \"title\": \"Chapter 1\"\x7d, \x7b\"role\": \"WRITER\", \"description\": \"Write Chapter 2\", \"context_script\": \"c2\", \"title\": \"Chapter 2\"\x7d]\x7d",
        "deepseek")
    else if n = 1 then Except.ok ("style", "gemini")
    else if n = 2 then Except.ok ("\x7b\"content\": \"\"\x7d", "mistral")
    else if n = 3 then Except.ok ("\x7b\"content\": \"A storm rises.\"\x7d", "mistral")
    else if n = 4 then Except.ok ("\x7b\"approved\": true\x7d", "groq")
    else if n = 5 then Except.ok ("\x7b\"status\": \"pass\"\x7d", "gemini")
    else Except.error "unused"

set_option maxRecDepth 8000 in
/-- Witness for C7 at a concrete run: one draft (the second task's
content), one failure log. -/
theorem workflow_empty_content_skipped_witness :
    (runMultiAgentWorkflow c7Oracle ⟨none⟩).blocks.map (fun d => d.content) =
        ["A storm rises."] ∧
      (runMultiAgentWorkflow c7Oracle ⟨none⟩).blocks.length = 1 ∧
      (runMultiAgentWorkflow c7Oracle ⟨none⟩).logs.filter
        (fun lg => lg.status = "failed") = [writerFailLog] := by
  have h := workflow_empty_content_skipped c7Oracle ⟨none⟩
    "\x7b\"tasks\": [\x7b\"role\": \"WRITER\", \"description\": \"Write Chapter 1\", \"context_script\": \"c1\", \"title\": \"Chapter 1\"\x7d, \x7b\"role\": \"WRITER\", \"description\": \"Write Chapter 2\", \"context_script\": \"c2\", \"title\": \"Chapter 2\"\x7d]\x7d"
    "deepseek" "style" "gemini"
    [JVal.jobj [("role", JVal.jstr "WRITER"), ("description", JVal.jstr "Write Chapter 1"), ("context_script", JVal.jstr "c1"), ("title", JVal.jstr "Chapter 1")],
     JVal.jobj [("role", JVal.jstr "WRITER"), ("description", JVal.jstr "Write Chapter 2"), ("context_script", JVal.jstr "c2"), ("title", JVal.jstr "Chapter 2")]]
    ⟨"WRITER", "Write Chapter 1", "c1", some "Chapter 1"⟩
    ⟨"WRITER", "Write Chapter 2", "c2", some "Chapter 2"⟩
    "\x7b\"content\": \"\"\x7d" "mistral"
    "\x7b\"content\": \"A storm rises.\"\x7d" "mistral"
    "\x7b\"approved\": true\x7d" "groq"
    "\x7b\"status\": \"pass\"\x7d" "gemini"
    rfl rfl rfl (by rfl) (by rfl) rfl rfl rfl (by rfl) rfl
    (by
      rw [show contentOf "\x7b\"content\": \"A storm rises.\"\x7d" =
        "A storm rises." from rfl]
      decide)
    rfl rfl
  exact ⟨by rw [h.1]; rfl, h.2.1, h.2.2⟩

/-- C10: `updateModelAvailability registry p b` (modelRegistry.ts, lines
213-219) relates the old and new registry entry-by-entry: every entry of
provider `p` keeps all fields except `isAvailable`, which becomes `b`;
every entry of any other provider is unchanged in every field; no entry is
added or removed. -/
theorem updateModelAvailability_frame (registry : List ModelConfig)
    (p : ModelProvider) (b : Bool) :
    List.Forall₂
      (fun old new =>
        new.provider = old.provider ∧ new.modelId = old.modelId ∧
        new.displayName = old.displayName ∧ new.description = old.description ∧
        new.strengths = old.strengths ∧
        new.isAvailable = (if old.provider = p then b else old.isAvailable))
      registry (updateModelAvailability registry p b) := by
  induction registry with
  | nil => exact List.Forall₂.nil
  | cons m rest ih =>
    refine List.Forall₂.cons ?_ ih
    by_cases hm : m.provider = p <;> simp [hm]
